import Mathlib

/-!
Formal model of the timetable-generator scheduling engine: the CSP solver
(`extras/timetable_csp_hard.py`, class `TimetableCSP`) and the genetic solver
(`genetic_algorithm.py`, class `GeneticAlgorithmCPUOptimized`).

Modelling conventions:
* Python dict rows become structures; `dict.get(k, d)` becomes an `Option`
  lookup with default `d`.
* Float arithmetic is modelled exactly over `ℚ` (the claims under study do not
  hinge on rounding).
* Python's stable `list.sort(key=...)` is modelled by a stable insertion sort
  (`isortL`) over a strict "key-less-than" comparison: an element is inserted
  after every element with a strictly smaller key and before the first element
  whose key is not smaller, which reproduces Python's stable order exactly.
* Calls into the `random` module are modelled by an oracle `Oracle := Nat → Nat`
  together with an explicit read position; every float-threshold test
  (`random.random() < r`) is modelled as a nondeterministic boolean drawn from
  the oracle, and `random.choice` / `random.randint` / `random.sample` draw
  indices modulo the relevant range.  Theorems about the genetic algorithm
  quantify over all oracles.
* `raise` is modelled by `Except String`; wall-clock time in the CSP trace
  record is omitted (real time is not modelled).
-/

/-- A row of the `batches` table (the fields the solvers read). -/
structure Batch where
  id : Nat
  numberOfStudents : Nat
deriving DecidableEq, Repr, Inhabited

/-- A row of the `subjects` table (the fields the solvers read). -/
structure Subject where
  id : Nat
  subjectType : String
  credits : Int
  theoryHours : Nat
  labHours : Nat
deriving DecidableEq, Repr, Inhabited

/-- A room row: classrooms carry `capacity`, computer labs carry
`computerCapacity`; absent columns are `none` (Python `dict.get`). -/
structure Room where
  id : Nat
  capacity : Option Nat
  computerCapacity : Option Nat
deriving DecidableEq, Repr, Inhabited

/-- A row of `subject_allocation`. -/
structure Allocation where
  batchId : Nat
  subjectId : Nat
  facultyId : Nat
deriving DecidableEq, Repr, Inhabited

/-- A row of `fixed_slots`. -/
structure FixedSlot where
  batchId : Nat
  day : String
  timeSlot : String
  subjectId : Nat
  facultyId : Nat
  roomId : Nat
  roomType : String
deriving DecidableEq, Repr, Inhabited

/-- A row of `constraints_config`. -/
structure ConstraintRow where
  name : String
  ctype : String
  enabled : Bool
  weight : ℚ
deriving DecidableEq, Repr, Inhabited

/-- One scheduled slot: the dict appended to a solution / timetable list. -/
structure Entry where
  batchId : Nat
  day : String
  timeSlot : String
  subjectId : Nat
  facultyId : Nat
  roomId : Nat
  roomType : String
  isFixed : Bool
deriving DecidableEq, Repr, Inhabited

/-- The in-memory snapshot both solvers build in `_load_data`: working days and
time slots of the college row, the batch rows restricted to the selected batch
ids, the allocations restricted likewise, the fixed-slot rows restricted
likewise, all subjects, classrooms, labs, and the constraint rows. -/
structure Catalog where
  workingDays : List String
  timeSlots : List String
  batches : List Batch
  subjects : List Subject
  allocations : List Allocation
  classrooms : List Room
  labs : List Room
  fixedSlots : List FixedSlot
  constraints : List ConstraintRow
deriving DecidableEq, Repr, Inhabited

/-- `self.subjects[sid]` lookup (`dict` keyed by id; ids are unique). -/
def subjFind (cat : Catalog) (sid : Nat) : Option Subject :=
  cat.subjects.find? (fun s => s.id == sid)

/-- `self.batches[bid]` lookup. -/
def batchFind (cat : Catalog) (bid : Nat) : Option Batch :=
  cat.batches.find? (fun b => b.id == bid)

/-- `self.batches[bid]['number_of_students']`; the solvers only evaluate this
for batch ids present in the snapshot, so the default is never observable. -/
def batchSize (cat : Catalog) (bid : Nat) : Nat :=
  ((batchFind cat bid).map (fun b => b.numberOfStudents)).getD 0

/-- `self.constraint_config.get(name, {})` (names are unique in the table). -/
def cfgFind (cat : Catalog) (name : String) : Option ConstraintRow :=
  cat.constraints.find? (fun c => c.name == name)

/-- `self.constraint_config.get(name, {}).get('enabled', True)`. -/
def cfgEnabled (cat : Catalog) (name : String) : Bool :=
  match cfgFind cat name with
  | some c => c.enabled
  | none => true

/-- `self.constraint_config.get(name, {}).get('weight', d)`. -/
def cfgWeight (cat : Catalog) (name : String) (d : ℚ) : ℚ :=
  match cfgFind cat name with
  | some c => c.weight
  | none => d

/-- `self.time_slots.index(t)` as an `Option` (first occurrence). -/
def timeIdx (cat : Catalog) (t : String) : Option Nat :=
  cat.timeSlots.findIdx? (fun x => x == t)

/-- `self.working_days.index(d)` as an `Option`. -/
def dayIdx (cat : Catalog) (d : String) : Option Nat :=
  cat.workingDays.findIdx? (fun x => x == d)

/-- `_get_time_slot_division`: the day is split into three equal contiguous
divisions by period index (`_define_day_slots`); a found index always lies in
exactly one of them, an unknown label yields `"unknown"`. -/
def slotDivision (cat : Catalog) (t : String) : String :=
  match timeIdx cat t with
  | none => "unknown"
  | some i =>
    let n := cat.timeSlots.length
    if i < n / 3 then "morning"
    else if i < n * 2 / 3 then "noon"
    else "late_noon"

/-- Stable insertion of `x`: walk past every element strictly smaller (by the
key order `lt`), insert before the first element not smaller.  Used to model
Python's stable `sort`. -/
def insertL {α : Type} (lt : α → α → Bool) (x : α) : List α → List α
  | [] => [x]
  | y :: ys => if lt y x then y :: insertL lt x ys else x :: y :: ys

/-- Stable insertion sort (model of Python's stable `list.sort`).  Elements
with equal keys keep their original relative order. -/
def isortL {α : Type} (lt : α → α → Bool) : List α → List α
  | [] => []
  | x :: xs => insertL lt x (isortL lt xs)

/-- Lexicographic strict order on `Nat × Nat` keys. -/
def pairLtN (a b : Nat × Nat) : Bool :=
  a.1 < b.1 || (a.1 == b.1 && a.2 < b.2)

/-- `_prepare_slots`: generate `(day, time)` pairs day-major and sort them by
`(day_order, time index)` with a stable sort (the generated order already has
nondecreasing keys whenever the day labels are distinct). -/
def slotSortKey (cat : Catalog) (s : String × String) : Nat × Nat :=
  (((cat.workingDays.reverse.findIdx? (fun x => x == s.1)).map
      (fun i => cat.workingDays.length - 1 - i)).getD 999,
   (timeIdx cat s.2).getD 999)

/-- `_prepare_slots`. -/
def prepareSlots (cat : Catalog) : List (String × String) :=
  isortL (fun a b => pairLtN (slotSortKey cat a) (slotSortKey cat b))
    (cat.workingDays.flatMap (fun d => cat.timeSlots.map (fun t => (d, t))))

/-- One element of `self.assignments` (a pending requirement for the CSP). -/
structure Assignment where
  batchId : Nat
  subjectId : Nat
  facultyId : Nat
  atype : String
  duration : Nat
  index : Nat
  priority : Int
deriving DecidableEq, Repr, Inhabited

/-- The fixed-assignment test in `_prepare_assignments`: some fixed slot has
the same `(batch, subject, faculty)` triple. -/
def isFixedTriple (cat : Catalog) (a : Allocation) : Bool :=
  cat.fixedSlots.any (fun fs =>
    fs.batchId == a.batchId && fs.subjectId == a.subjectId &&
    fs.facultyId == a.facultyId)

/-- The unsorted assignment list of `_prepare_assignments`: skip allocations
whose subject or batch is missing from the snapshot or whose triple is covered
by a fixed slot; emit one 1-period theory assignment per weekly theory hour and
one `lab_hours`-period lab assignment when `lab_hours > 0`. -/
def rawAssignments (cat : Catalog) : List Assignment :=
  cat.allocations.flatMap (fun al =>
    match subjFind cat al.subjectId, batchFind cat al.batchId with
    | some subj, some _ =>
      if isFixedTriple cat al then []
      else
        (List.range subj.theoryHours).map (fun i =>
          { batchId := al.batchId, subjectId := al.subjectId,
            facultyId := al.facultyId, atype := "theory", duration := 1,
            index := i, priority := subj.credits }) ++
        (if subj.labHours > 0 then
          [{ batchId := al.batchId, subjectId := al.subjectId,
             facultyId := al.facultyId, atype := "lab",
             duration := subj.labHours, index := 0,
             priority := subj.credits + 2 }]
         else [])
    | _, _ => [])

/-- The sort key order of `_prepare_assignments`:
`key = (-priority, -duration)` ascending, i.e. priority descending then
duration descending. -/
def assignLt (a b : Assignment) : Bool :=
  b.priority < a.priority ||
    (a.priority == b.priority && decide (b.duration < a.duration))

/-- `_prepare_assignments` (stable sort by descending priority, then
descending duration). -/
def prepareAssignments (cat : Catalog) : List Assignment :=
  isortL assignLt (rawAssignments cat)

/-- `_get_available_rooms`. -/
def getAvailableRooms (cat : Catalog) (slotType : String) (bsize : Nat) :
    List Room :=
  let rooms := if slotType == "lab" then
      (if cat.labs.isEmpty then cat.classrooms else cat.labs)
    else cat.classrooms
  if cfgEnabled cat "room_capacity" then
    rooms.filter (fun r =>
      bsize ≤ r.capacity.getD 999 || bsize ≤ r.computerCapacity.getD 999)
  else rooms

/-- The loop of `_find_consecutive_slots`: starting at period index `tIdx`,
collect `k` pairs `(day, time_slots[tIdx + i])`, or fail (`none`) as soon as an
index falls off the end of the period list. -/
def consecFrom (ts : List String) (day : String) (tIdx : Nat) :
    Nat → Option (List (String × String))
  | 0 => some []
  | k + 1 =>
    match ts[tIdx]? with
    | some t => (consecFrom ts day (tIdx + 1) k).map (fun l => (day, t) :: l)
    | none => none

/-- `_find_consecutive_slots`: empty if the start day or time is unknown or the
block does not fit, otherwise the `duration` consecutive slots. -/
def findConsecutiveSlots (cat : Catalog) (startDay startTime : String)
    (duration : Nat) : List (String × String) :=
  match dayIdx cat startDay, timeIdx cat startTime with
  | some _, some tIdx => (consecFrom cat.timeSlots startDay tIdx duration).getD []
  | _, _ => []

/-- `self.subjects.get(sid, {}).get('subject_type', 'theory')`. -/
def subjTypeOf (cat : Catalog) (sid : Nat) : String :=
  ((subjFind cat sid).map (fun s => s.subjectType)).getD "theory"

/-- `_check_slot_type_constraint`: `true` when the slot's division already
holds an entry of the other subject type for this batch on this day. -/
def checkSlotTypeConstraint (cat : Catalog) (a : Assignment)
    (slot : String × String) (sol : List Entry) : Bool :=
  let division := slotDivision cat slot.2
  sol.any (fun e =>
    e.batchId == a.batchId && e.day == slot.1 &&
    slotDivision cat e.timeSlot == division &&
    ((a.atype == "theory" && subjTypeOf cat e.subjectId == "practical") ||
     (a.atype == "lab" && subjTypeOf cat e.subjectId == "theory")))

/-- Adjacent-gap test on a sorted index list (`gap > 1` for some neighbours). -/
def hasGapGtOne : List Nat → Bool
  | x :: y :: rest => decide (x + 1 < y) || hasGapGtOne (y :: rest)
  | _ => false

/-- `_check_consecutive_free_period`: `true` when inserting the candidate
period index into the batch's period indices for that day leaves a gap. -/
def checkConsecutiveFreePeriod (cat : Catalog) (a : Assignment)
    (slot : String × String) (sol : List Entry) : Bool :=
  match timeIdx cat slot.2 with
  | none => false
  | some tIdx =>
    let batchDayTimes := sol.filterMap (fun e =>
      if e.batchId == a.batchId && e.day == slot.1 then timeIdx cat e.timeSlot
      else none)
    if batchDayTimes.isEmpty then false
    else hasGapGtOne (isortL (fun x y => decide (x < y)) (batchDayTimes ++ [tIdx]))

/-- `_check_hard_constraints`: `true` means the candidate `(slot, room)` is
rejected.  Constraints 1-3 and the capacity check consult their enabled flags;
the division-type check and the no-gap check are applied unconditionally, as in
the source. -/
def checkHardConstraints (cat : Catalog) (a : Assignment)
    (slot : String × String) (roomId : Nat) (sol : List Entry) : Bool :=
  let occupied :=
    if a.duration == 1 then [slot]
    else findConsecutiveSlots cat slot.1 slot.2 a.duration
  if a.duration != 1 && occupied.isEmpty then true
  else
    (sol.any (fun e =>
      occupied.contains (e.day, e.timeSlot) &&
      ((cfgEnabled cat "no_faculty_conflict" && a.facultyId == e.facultyId) ||
       (cfgEnabled cat "no_batch_conflict" && a.batchId == e.batchId) ||
       (cfgEnabled cat "no_room_conflict" && roomId == e.roomId)))) ||
    (cfgEnabled cat "room_capacity" &&
      (match (cat.classrooms ++ cat.labs).find? (fun r => r.id == roomId) with
       | some r => decide (r.capacity.getD (r.computerCapacity.getD 0) <
           batchSize cat a.batchId)
       | none => false)) ||
    checkSlotTypeConstraint cat a slot sol ||
    checkConsecutiveFreePeriod cat a slot sol

/-- `self.subjects.get(sid, {}).get('credits', 3)`. -/
def subjCreditsOf (cat : Catalog) (sid : Nat) : Int :=
  ((subjFind cat sid).map (fun s => s.credits)).getD 3

/-- `_calculate_soft_constraint_penalty`.  Period indices of existing entries
are looked up in the calendar; all entries placed by the solver carry calendar
labels, so the `getD 0` default mirrors the reachable behaviour of
`list.index`. -/
def softPenalty (cat : Catalog) (a : Assignment) (slot : String × String)
    (sol : List Entry) : ℚ :=
  let day := slot.1
  let time := slot.2
  let tIdx : Nat := (timeIdx cat time).getD 0
  let p1 : ℚ :=
    if cfgEnabled cat "priority_bias_scheduling" &&
        decide (4 ≤ subjCreditsOf cat a.subjectId) &&
        slotDivision cat time == "late_noon" then
      cfgWeight cat "priority_bias_scheduling" 3
    else 0
  let p2 : ℚ :=
    if cfgEnabled cat "lab_alternation" && a.atype == "lab" then
      let labCount := sol.countP (fun e =>
        e.day == day && e.batchId == a.batchId &&
        ((subjFind cat e.subjectId).map (fun s => s.subjectType)).getD "" ==
          "practical")
      if 0 < labCount then (labCount : ℚ) * cfgWeight cat "lab_alternation" 3
      else 0
    else 0
  let p3 : ℚ :=
    if cfgEnabled cat "minimize_faculty_gaps" then
      ((sol.filter (fun e => e.day == day && e.facultyId == a.facultyId)).map
        (fun e =>
          let g : Int := ((tIdx : Int) - ((timeIdx cat e.timeSlot).getD 0 : Int)).natAbs
          if 1 < g then
            ((g : ℚ) - 1) * cfgWeight cat "minimize_faculty_gaps" 2 * (1 / 2)
          else 0)).sum
    else 0
  let p4 : ℚ :=
    if a.atype == "theory" then
      let c := sol.countP (fun e =>
        e.batchId == a.batchId && e.day == day &&
        e.subjectId == a.subjectId && e.roomType == "classroom")
      if 0 < c then 50 * (c : ℚ) else 0
    else 0
  p1 + p2 + p3 + p4 + (tIdx : ℚ) * (1 / 10)

/-- `_select_best_slot_lcv`: score every surviving candidate, stable-sort by
penalty, take the head (`None` on an empty candidate list). -/
def selectBestSlotLcv (cat : Catalog) (a : Assignment)
    (validSlots : List ((String × String) × Room)) (sol : List Entry) :
    Option ((String × String) × Room) :=
  match validSlots with
  | [] => none
  | _ =>
    match isortL (fun x y => decide (x.1 < y.1))
        (validSlots.map (fun sr => (softPenalty cat a sr.1 sol, sr))) with
    | [] => none
    | s :: _ => some s.2

/-- `_assign_slot`. -/
def assignSlot (cat : Catalog) (a : Assignment) (slot : String × String)
    (room : Room) : List Entry :=
  let mk : String × String → Entry := fun st =>
    { batchId := a.batchId, day := st.1, timeSlot := st.2,
      subjectId := a.subjectId, facultyId := a.facultyId, roomId := room.id,
      roomType := if a.atype == "lab" then "lab" else "classroom",
      isFixed := false }
  if a.duration == 1 then [mk slot]
  else (findConsecutiveSlots cat slot.1 slot.2 a.duration).map mk

/-- `_apply_fixed_slots` emits each fixed-slot row verbatim with
`is_fixed = True`; the same dict shape is built by the genetic algorithm's
`_create_random_timetable` for its fixed genes. -/
def Entry.ofFixed (fs : FixedSlot) : Entry :=
  { batchId := fs.batchId, day := fs.day, timeSlot := fs.timeSlot,
    subjectId := fs.subjectId, facultyId := fs.facultyId, roomId := fs.roomId,
    roomType := fs.roomType, isFixed := true }

/-- `_apply_fixed_slots`. -/
def applyFixedSlots (cat : Catalog) : List Entry :=
  cat.fixedSlots.map Entry.ofFixed

/-- The candidate enumeration of `_smart_solve`: all `(slot, room)` pairs in
chronological slot order (rooms inner) that survive `_check_hard_constraints`. -/
def validCombinations (cat : Catalog) (a : Assignment) (sol : List Entry) :
    List ((String × String) × Room) :=
  (prepareSlots cat).flatMap (fun s =>
    (getAvailableRooms cat a.atype (batchSize cat a.batchId)).filterMap
      (fun r =>
        if checkHardConstraints cat a s r.id sol then none else some (s, r)))

/-- The per-assignment loop of `_smart_solve`: place each pending assignment in
turn, extending the solution; `none` as soon as some assignment has no valid
combination (no backtracking). -/
def solveSteps (cat : Catalog) : List Assignment → List Entry →
    Option (List Entry)
  | [], sol => some sol
  | a :: rest, sol =>
    let combos := validCombinations cat a sol
    if combos.isEmpty then none
    else
      match selectBestSlotLcv cat a combos sol with
      | some (slot, room) => solveSteps cat rest (sol ++ assignSlot cat a slot room)
      | none => none

/-- `_smart_solve`: start from the fixed slots and place every prepared
assignment. -/
def smartSolve (cat : Catalog) : Option (List Entry) :=
  solveSteps cat (prepareAssignments cat) (applyFixedSlots cat)

/-- One record of the CSP solve trace (wall-clock time omitted). -/
structure CspHist where
  iteration : Nat
  conflicts : Nat
  method : String
deriving DecidableEq, Repr, Inhabited

/-- `TimetableCSP` construction (`_load_data` checks, in source order) followed
by `run()`: a `None` from `_smart_solve` becomes the fixed `ValueError`
message. -/
def cspRun (cat : Catalog) : Except String (List Entry × List CspHist) :=
  if cat.batches.isEmpty then .error "No batches found for IDs"
  else if cat.allocations.isEmpty then
    .error "No subject allocations found for selected batches."
  else if cat.classrooms.isEmpty then .error "No classrooms found."
  else
    match smartSolve cat with
    | none => .error "Failed to find valid timetable. Try relaxing constraints."
    | some sol =>
      .ok (sol, [{ iteration := 0, conflicts := 0,
                   method := "Enhanced CSP with Soft Subject Distribution" }])

/-! ### Genetic algorithm (`genetic_algorithm.py`, CPU path, sequential
semantics — the parallel dispatch falls back to the identical sequential
computation) -/

/-- The randomness source: an infinite stream of naturals read at explicit
positions.  Each `random.choice`/`randint`/`sample` call reads one value and
reduces it modulo the size of its range; each `random.random() < r` threshold
test reads one value and keeps its parity.  Quantifying over all oracles
quantifies over all outcomes the Python `random` module can produce. -/
abbrev Oracle := Nat → Nat

/-- A nondeterministic boolean (`random.random()` threshold test). -/
def rbool (o : Oracle) (p : Nat) : Bool :=
  o p % 2 == 0

/-- A nondeterministic index below `n`. -/
def rnat (o : Oracle) (p n : Nat) : Nat :=
  o p % n

/-- `random.choice(l)`: raises on an empty sequence, otherwise one element. -/
def pick {α : Type} (l : List α) (o : Oracle) (p : Nat) :
    Except String (α × Nat) :=
  match l with
  | [] => .error "Cannot choose from an empty sequence"
  | x :: xs =>
    .ok ((x :: xs).get ⟨o p % (xs.length + 1), Nat.mod_lt _ (Nat.succ_pos _)⟩,
         p + 1)

/-- One element of `self.slot_requirements` (`_load_data`); theory
requirements carry no duration key, hence the `Option`. -/
structure Req where
  batchId : Nat
  subjectId : Nat
  facultyId : Nat
  rtype : String
  duration : Option Nat
deriving DecidableEq, Repr, Inhabited

/-- `self.slot_requirements` as built in `GeneticAlgorithmCPUOptimized._load_data`:
per allocation (with known subject and batch), one theory requirement per
weekly theory hour and one practical requirement carrying `lab_hours` when
positive.  Note: unlike the CSP, this expansion does not exclude triples
covered by fixed slots. -/
def slotRequirements (cat : Catalog) : List Req :=
  cat.allocations.flatMap (fun al =>
    match subjFind cat al.subjectId, batchFind cat al.batchId with
    | some subj, some _ =>
      (List.range subj.theoryHours).map (fun _ =>
        { batchId := al.batchId, subjectId := al.subjectId,
          facultyId := al.facultyId, rtype := "theory", duration := none }) ++
      (if subj.labHours > 0 then
        [{ batchId := al.batchId, subjectId := al.subjectId,
           facultyId := al.facultyId, rtype := "practical",
           duration := some subj.labHours }]
       else [])
    | _, _ => [])

/-- The construction-time checks of the genetic algorithm's `_load_data`, in
source order (the college-row check is subsumed by the snapshot). -/
def gaLoadData (cat : Catalog) : Except String Unit :=
  if cat.batches.isEmpty then .error "No batches found for selected batch IDs"
  else if cat.allocations.isEmpty then
    .error "No subject allocations found for selected batches."
  else if cat.classrooms.isEmpty then .error "No classrooms found."
  else if (slotRequirements cat).isEmpty then
    .error "No slot requirements generated."
  else .ok ()

/-- The genetic algorithm parameters (construction arguments). -/
structure GaParams where
  populationSize : Nat
  maxGenerations : Nat
  crossoverRate : ℚ
  mutationRate : ℚ
  eliteSize : Nat
  tournamentSize : Nat
deriving DecidableEq, Repr, Inhabited

/-- The requirement loop of `_create_random_timetable`. -/
def crtLoop (cat : Catalog) (o : Oracle) :
    List Req → List Entry → Nat → Except String (List Entry × Nat)
  | [], acc, p => .ok (acc, p)
  | req :: rest, acc, p =>
    if req.rtype == "theory" then do
      let (day, p) ← pick cat.workingDays o p
      let (t, p) ← pick cat.timeSlots o p
      let (room, p) ← pick cat.classrooms o p
      crtLoop cat o rest (acc ++
        [{ batchId := req.batchId, day := day, timeSlot := t,
           subjectId := req.subjectId, facultyId := req.facultyId,
           roomId := room.id, roomType := "classroom", isFixed := false }]) p
    else if req.rtype == "practical" then do
      let dur := req.duration.getD 0
      let (day, p) ← pick cat.workingDays o p
      -- random.randint(0, max(0, len(time_slots) - duration)), both ends inclusive
      let startIdx := rnat o p (cat.timeSlots.length - dur + 1)
      let p := p + 1
      let (rr, p) ←
        if cat.labs.isEmpty then
          (pick cat.classrooms o p).map (fun xp => ((xp.1.id, "classroom"), xp.2))
        else
          (pick cat.labs o p).map (fun xp => ((xp.1.id, "lab"), xp.2))
      let genes := (List.range dur).filterMap (fun i =>
        if startIdx + i < cat.timeSlots.length then
          some { batchId := req.batchId, day := day,
                 timeSlot := cat.timeSlots.getD (startIdx + i) "",
                 subjectId := req.subjectId, facultyId := req.facultyId,
                 roomId := rr.1, roomType := rr.2, isFixed := false }
        else none)
      crtLoop cat o rest (acc ++ genes) p
    else crtLoop cat o rest acc p

/-- `_create_random_timetable`: the fixed genes first, then one randomly
placed gene per theory requirement and up to `duration` genes per practical
requirement. -/
def createRandomTimetable (cat : Catalog) (o : Oracle) (p : Nat) :
    Except String (List Entry × Nat) :=
  crtLoop cat o (slotRequirements cat) (applyFixedSlots cat) p

/-- Sequential population initialization (`_initialize_population_parallel`
falls back to exactly this loop). -/
def initPop (cat : Catalog) (o : Oracle) :
    Nat → Nat → Except String (List (List Entry) × Nat)
  | 0, p => .ok ([], p)
  | n + 1, p => do
    let (tt, p) ← createRandomTimetable cat o p
    let (rest, p) ← initPop cat o n p
    .ok (tt :: rest, p)

/-- `counts.get(k, 0) + 1` accumulation: the per-key multiplicities of `l`
under `key`, keyed in first-occurrence order (Python dict iteration order). -/
def keyCounts (key : Entry → Nat) (l : List Entry) : List (Nat × Nat) :=
  l.foldl (fun acc e =>
    if acc.any (fun kc => kc.1 == key e) then
      acc.map (fun kc => if kc.1 == key e then (kc.1, kc.2 + 1) else kc)
    else acc ++ [(key e, 1)]) []

/-- Group the entries of `l` by `key`, keys in first-occurrence order and each
group in list order (Python dict-of-lists accumulation). -/
def groupByKey {κ : Type} [BEq κ] (key : Entry → κ) (l : List Entry) :
    List (κ × List Entry) :=
  l.foldl (fun acc e =>
    if acc.any (fun g => g.1 == key e) then
      acc.map (fun g => if g.1 == key e then (g.1, g.2 ++ [e]) else g)
    else acc ++ [(key e, [e])]) []

/-- The conflict penalty pattern of `_calculate_fitness`: for every
`(day, period)` group, for every identity with multiplicity above one, add
`weight * (count - 1)`. -/
def conflictPenalty (key : Entry → Nat) (w : ℚ) (tt : List Entry) : ℚ :=
  ((groupByKey (fun e => (e.day, e.timeSlot)) tt).map (fun g =>
    ((keyCounts key g.2).map (fun kc =>
      if 1 < kc.2 then w * ((kc.2 : ℚ) - 1) else 0)).sum)).sum

/-- The gap penalty pattern of `_calculate_fitness`: group by
`(identity, day)`, sort each group by period index, and charge
`weight * gap * 0.5` for every positive gap between chronologically adjacent
slots. -/
def gapPenalty (cat : Catalog) (key : Entry → Nat) (w : ℚ) (tt : List Entry) :
    ℚ :=
  ((groupByKey (fun e => (key e, e.day)) tt).map (fun g =>
    if 1 < g.2.length then
      let sorted := isortL (fun x y =>
        decide ((timeIdx cat x.timeSlot).getD 0 < (timeIdx cat y.timeSlot).getD 0)) g.2
      ((sorted.zip sorted.tail).map (fun xy =>
        let gap : Int := ((timeIdx cat xy.2.timeSlot).getD 0 : Int) -
          ((timeIdx cat xy.1.timeSlot).getD 0 : Int) - 1
        if 0 < gap then w * (gap : ℚ) * (1 / 2) else 0)).sum
    else 0)).sum

/-- Distinct faculty ids of a timetable in first-occurrence order (the sum over
`set(...)` is order-independent). -/
def distinctFaculty (tt : List Entry) : List Nat :=
  tt.foldl (fun acc e => if acc.contains e.facultyId then acc
    else acc ++ [e.facultyId]) []

/-- `faculty_daily_load[(fid, day)]`. -/
def facultyDailyLoad (tt : List Entry) (fid : Nat) (day : String) : Nat :=
  tt.countP (fun e => e.facultyId == fid && e.day == day)

/-- The balanced-faculty-load penalty term of `_calculate_fitness`. -/
def balancePenalty (cat : Catalog) (w : ℚ) (tt : List Entry) : ℚ :=
  ((distinctFaculty tt).map (fun fid =>
    let loads := cat.workingDays.map (fun d => facultyDailyLoad tt fid d)
    if !loads.isEmpty && 0 < loads.foldl max 0 then
      let avg : ℚ := ((loads.map (fun n => (n : ℚ))).sum) / (loads.length : ℚ)
      let variance : ℚ :=
        ((loads.map (fun n => ((n : ℚ) - avg) ^ 2)).sum) / (loads.length : ℚ)
      w * variance * (3 / 10)
    else 0)).sum

/-- The loaded (enabled-only) constraint dict of `_load_constraints`. -/
def gaConstraints (cat : Catalog) : List ConstraintRow :=
  cat.constraints.filter (fun c => c.enabled)

/-- `name in self.constraints` / `self.constraints[name]['weight']`. -/
def gaFind (cat : Catalog) (name : String) : Option ConstraintRow :=
  (gaConstraints cat).find? (fun c => c.name == name)

/-- The accumulated penalty of `_calculate_fitness`. -/
def gaPenalty (cat : Catalog) (tt : List Entry) : ℚ :=
  (match gaFind cat "no_faculty_conflict" with
   | some c => conflictPenalty (fun e => e.facultyId) c.weight tt
   | none => 0) +
  (match gaFind cat "no_batch_conflict" with
   | some c => conflictPenalty (fun e => e.batchId) c.weight tt
   | none => 0) +
  (match gaFind cat "no_room_conflict" with
   | some c => conflictPenalty (fun e => e.roomId) c.weight tt
   | none => 0) +
  (match gaFind cat "minimize_faculty_gaps" with
   | some c => gapPenalty cat (fun e => e.facultyId) c.weight tt
   | none => 0) +
  (match gaFind cat "minimize_batch_gaps" with
   | some c => gapPenalty cat (fun e => e.batchId) c.weight tt
   | none => 0) +
  (match gaFind cat "balanced_faculty_load" with
   | some c => balancePenalty cat c.weight tt
   | none => 0)

/-- `_calculate_fitness`: `1000 / (1 + penalty)`. -/
def calculateFitness (cat : Catalog) (tt : List Entry) : ℚ :=
  1000 / (1 + gaPenalty cat tt)

/-- `_crossover`: with one oracle coin the no-crossover copy branch, otherwise
the fixed genes of parent 1 are copied into both children and each index of
the non-fixed sequences is distributed by a fair coin; the tail beyond the
shorter parent is appended from the matching parent. -/
def crossoverGA (o : Oracle) (p : Nat) (par1 par2 : List Entry) :
    (List Entry × List Entry) × Nat :=
  if rbool o p then ((par1, par2), p + 1)
  else
    let fixedGenes := par1.filter (fun s => s.isFixed)
    let nf1 := par1.filter (fun s => !s.isFixed)
    let nf2 := par2.filter (fun s => !s.isFixed)
    let minLen := min nf1.length nf2.length
    let c1 := fixedGenes ++ (List.range minLen).map (fun i =>
        if rbool o (p + 1 + i) then nf1.getD i default else nf2.getD i default) ++
      nf1.drop minLen
    let c2 := fixedGenes ++ (List.range minLen).map (fun i =>
        if rbool o (p + 1 + i) then nf2.getD i default else nf1.getD i default) ++
      nf2.drop minLen
    ((c1, c2), p + 1 + minLen)

/-- The simultaneous `(day, time_slot)` swap of `_mutate` between timetable
indices `i` and `j` (both fields are read before either is written). -/
def swapDayTime (tt : List Entry) (i j : Nat) : List Entry :=
  let e1 := tt.getD i default
  let e2 := tt.getD j default
  (tt.set i { e1 with day := e2.day, timeSlot := e2.timeSlot }).set j
    { e2 with day := e1.day, timeSlot := e1.timeSlot }

/-- The attempt loop of `_mutate`: per attempt one threshold coin and, when it
fires, a `random.sample(non_fixed_indices, 2)` drawn as a position below `n`
and a distinct second position below `n - 1`. -/
def mutLoop (o : Oracle) (nfi : List Nat) :
    Nat → List Entry → Nat → List Entry × Nat
  | 0, tt, p => (tt, p)
  | k + 1, tt, p =>
    if rbool o p then
      let n := nfi.length
      let pos1 := rnat o (p + 1) n
      let pos2 := let q := rnat o (p + 2) (n - 1); if pos1 ≤ q then q + 1 else q
      let i := nfi.getD pos1 0
      let j := nfi.getD pos2 0
      mutLoop o nfi k (swapDayTime tt i j) (p + 3)
    else mutLoop o nfi k tt (p + 1)

/-- `_mutate`: identity below two non-fixed genes, otherwise
`int(len(non_fixed) * mutation_rate) + 1` swap attempts over the non-fixed
indices. -/
def mutateGA (ps : GaParams) (o : Oracle) (p : Nat) (tt : List Entry) :
    List Entry × Nat :=
  let nfi := (List.range tt.length).filter (fun i => !(tt.getD i default).isFixed)
  if nfi.length < 2 then (tt, p)
  else mutLoop o nfi ((Rat.floor ((nfi.length : ℚ) * ps.mutationRate)).toNat + 1) tt p

/-- `max(l)` (Python `max` raises on an empty sequence, hence the `Option`). -/
def maxQ : List ℚ → Option ℚ
  | [] => none
  | x :: xs => some (xs.foldl max x)

/-- `random.sample`: `k` distinct elements of `avail`; raises when the sample
is larger than the population. -/
def sampleK (o : Oracle) : List Nat → Nat → Nat →
    Except String (List Nat × Nat)
  | _, 0, p => .ok ([], p)
  | [], _ + 1, _ => .error "Sample larger than population or is negative"
  | x :: xs, k + 1, p =>
    let idx := rnat o p (xs.length + 1)
    let v := (x :: xs).getD idx 0
    ((sampleK o ((x :: xs).eraseIdx idx) k (p + 1)).map
      (fun r => (v :: r.1, r.2)))

/-- `_tournament_selection`. -/
def tournamentSelection (ps : GaParams) (pop : List (List Entry))
    (fits : List ℚ) (o : Oracle) (p : Nat) :
    Except String (List Entry × Nat) := do
  let (ids, p) ← sampleK o (List.range pop.length) ps.tournamentSize p
  let tf := ids.map (fun i => fits.getD i 0)
  match maxQ tf with
  | none => .error "max() arg is an empty sequence"
  | some m =>
    let wpos := (tf.findIdx? (fun x => x == m)).getD 0
    let widx := ids.getD wpos 0
    .ok (pop.getD widx [], p)

/-- The parent-pair accumulation loop of `run()`:
`while len(new_population) + len(parent_pairs) * 2 < population_size`. -/
def buildPairs (ps : GaParams) (pop : List (List Entry)) (fits : List ℚ)
    (o : Oracle) (curLen : Nat) (acc : List (List Entry × List Entry))
    (p : Nat) : Except String (List (List Entry × List Entry) × Nat) :=
  if curLen + acc.length * 2 < ps.populationSize then do
    let (pa, p) ← tournamentSelection ps pop fits o p
    let (pb, p) ← tournamentSelection ps pop fits o p
    buildPairs ps pop fits o curLen (acc ++ [(pa, pb)]) p
  else .ok (acc, p)
termination_by ps.populationSize - (curLen + acc.length * 2)
decreasing_by
  simp only [List.length_append, List.length_cons, List.length_nil]
  omega

/-- The sequential branch of `_parallel_crossover_mutation`: per pair,
crossover, append the mutated first child, and append the mutated second child
while the children list is still shorter than twice the pair count. -/
def crossMutLoop (ps : GaParams) (o : Oracle) (total : Nat) :
    List (List Entry × List Entry) → List (List Entry) → Nat →
    List (List Entry) × Nat
  | [], children, p => (children, p)
  | pr :: rest, children, p =>
    let ((c1, c2), p) := crossoverGA o p pr.1 pr.2
    let (m1, p) := mutateGA ps o p c1
    let children := children ++ [m1]
    if children.length < total then
      let (m2, p) := mutateGA ps o p c2
      crossMutLoop ps o total rest (children ++ [m2]) p
    else crossMutLoop ps o total rest children p

/-- `_parallel_crossover_mutation` (sequential semantics). -/
def crossMutList (ps : GaParams) (o : Oracle)
    (pairs : List (List Entry × List Entry)) (p : Nat) :
    List (List Entry) × Nat :=
  crossMutLoop ps o (pairs.length * 2) pairs [] p

/-- `sorted(range(len(fitnesses)), key=lambda i: fitnesses[i], reverse=True)`:
descending by fitness, stable (equal fitnesses keep index order). -/
def eliteIndices (fits : List ℚ) : List Nat :=
  isortL (fun i j => decide (fits.getD j 0 < fits.getD i 0))
    (List.range fits.length)

/-- One record of the GA fitness history. -/
structure GenRec where
  generation : Nat
  best : ℚ
  average : ℚ
deriving DecidableEq, Repr, Inhabited

/-- The generational loop of `run()`. -/
def gaLoop (cat : Catalog) (ps : GaParams) (o : Oracle) :
    Nat → Nat → List (List Entry) → List GenRec → ℚ → Option (List Entry) →
    Nat → Except String (Option (List Entry) × List GenRec × Nat)
  | 0, _, _, hist, _, bestTT, p => .ok (bestTT, hist, p)
  | gensLeft + 1, gen, pop, hist, bestFit, bestTT, p => do
    let fits := pop.map (calculateFitness cat)
    match maxQ fits with
    | none => .error "max() arg is an empty sequence"
    | some bf =>
      let avg := fits.sum / (fits.length : ℚ)
      let hist := hist ++ [{ generation := gen, best := bf, average := avg }]
      let bestIdx := (fits.findIdx? (fun x => x == bf)).getD 0
      let (bestFit, bestTT) :=
        if bestFit < bf then (bf, some (pop.getD bestIdx [])) else (bestFit, bestTT)
      if 999 ≤ bf then .ok (bestTT, hist, p)
      else do
        let newPop0 := (eliteIndices fits).take ps.eliteSize |>.map
          (fun i => pop.getD i [])
        let (pairs, p) ← buildPairs ps pop fits o newPop0.length [] p
        let (children, p) := crossMutList ps o pairs p
        let newPop := newPop0 ++
          children.take (ps.populationSize - newPop0.length)
        gaLoop cat ps o gensLeft (gen + 1) newPop hist bestFit bestTT p

/-- `run()` of the genetic algorithm, preceded by the construction-time
`_load_data` checks: initialize the population, run the generational loop from
a best-overall fitness of `0` and no best individual, and return the
best-overall individual with the per-generation history.  The GA path never
returns an infeasibility error after construction succeeds. -/
def gaRun (cat : Catalog) (ps : GaParams) (o : Oracle) :
    Except String (Option (List Entry) × List GenRec) := do
  let _ ← gaLoadData cat
  let (pop, p) ← initPop cat o ps.populationSize 0
  let (bestTT, hist, _) ← gaLoop cat ps o ps.maxGenerations 0 pop [] 0 none p
  .ok (bestTT, hist)

deriving instance DecidableEq for Except

/-! ### Generic lemmas about the stable sort and index lookups -/

theorem mem_insertL {α : Type} (lt : α → α → Bool) (x a : α) :
    ∀ l : List α, a ∈ insertL lt x l ↔ a = x ∨ a ∈ l := by
  intro l
  induction l with
  | nil => simp [insertL]
  | cons y ys ih =>
    by_cases h : lt y x <;> simp [insertL, h, List.mem_cons, ih] <;> tauto

theorem mem_isortL {α : Type} (lt : α → α → Bool) (a : α) :
    ∀ l : List α, a ∈ isortL lt l ↔ a ∈ l := by
  intro l
  induction l with
  | nil => simp [isortL]
  | cons x xs ih =>
    simp only [isortL]
    rw [mem_insertL]
    simp [List.mem_cons, ih]

theorem length_insertL {α : Type} (lt : α → α → Bool) (x : α) :
    ∀ l : List α, (insertL lt x l).length = l.length + 1 := by
  intro l
  induction l with
  | nil => rfl
  | cons y ys ih =>
    by_cases h : lt y x <;> simp [insertL, h, ih]

theorem length_isortL {α : Type} (lt : α → α → Bool) :
    ∀ l : List α, (isortL lt l).length = l.length := by
  intro l
  induction l with
  | nil => rfl
  | cons x xs ih => simp [isortL, length_insertL, ih]

/-- The head of the stable sort by a rational key is the chronologically first
minimizer of the key: it attains the minimum, and every earlier element of the
input carries a strictly larger key. -/
theorem isortL_head_key {α : Type} (key : α → ℚ) :
    ∀ l : List α, l ≠ [] →
      ∃ i, ∃ hi : i < l.length,
        (isortL (fun a b => decide (key a < key b)) l).head? = some l[i] ∧
        (∀ j, ∀ hj : j < l.length, key l[i] ≤ key l[j]) ∧
        (∀ j, ∀ hj : j < l.length, j < i → key l[i] < key l[j]) := by
  intro l
  induction l with
  | nil => intro h; exact absurd rfl h
  | cons x xs ih =>
    intro _
    cases xs with
    | nil =>
      refine ⟨0, by simp, by simp [isortL, insertL], ?_, ?_⟩
      · intro j hj
        have hj0 : j = 0 := by simpa using hj
        subst hj0
        exact le_refl _
      · intro j hj hj0
        omega
    | cons y ys =>
      rcases ih (by simp) with ⟨i, hi, hhead, hmin, hstrict⟩
      rcases hs : isortL (fun a b => decide (key a < key b)) (y :: ys) with _ | ⟨v, t⟩
      · exfalso
        have hlen := length_isortL (fun a b => decide (key a < key b)) (y :: ys)
        rw [hs] at hlen
        simp at hlen
      · rw [hs] at hhead
        have hv : v = (y :: ys)[i] := by simpa using hhead
        by_cases hcmp : key (y :: ys)[i] < key x
        · have hd : (decide (key v < key x)) = true := by simp [hv, hcmp]
          refine ⟨i + 1, by simpa using Nat.succ_lt_succ hi, ?_, ?_, ?_⟩
          · show (insertL (fun a b => decide (key a < key b)) x
              (isortL (fun a b => decide (key a < key b)) (y :: ys))).head? = _
            rw [hs]
            simp only [insertL, hd, if_true]
            simp [hv]
          · intro j hj
            cases j with
            | zero =>
              simp only [List.getElem_cons_succ, List.getElem_cons_zero]
              exact le_of_lt hcmp
            | succ j' =>
              simp only [List.getElem_cons_succ]
              exact hmin j' (by simpa using hj)
          · intro j hj hlt
            cases j with
            | zero =>
              simp only [List.getElem_cons_succ, List.getElem_cons_zero]
              exact hcmp
            | succ j' =>
              simp only [List.getElem_cons_succ]
              exact hstrict j' (by simpa using hj) (by omega)
        · have hd : (decide (key v < key x)) = false := by simp [hv, hcmp]
          refine ⟨0, by simp, ?_, ?_, ?_⟩
          · show (insertL (fun a b => decide (key a < key b)) x
              (isortL (fun a b => decide (key a < key b)) (y :: ys))).head? = _
            rw [hs]
            simp only [insertL, hd, Bool.false_eq_true, if_false]
            simp
          · intro j hj
            cases j with
            | zero => exact le_refl _
            | succ j' =>
              simp only [List.getElem_cons_zero, List.getElem_cons_succ]
              exact le_trans (not_lt.mp hcmp) (hmin j' (by simpa using hj))
          · intro j hj hlt
            omega

/-- First-occurrence index lookup of a present element. -/
theorem findIdx_of_mem {α : Type} [DecidableEq α] (t : α) :
    ∀ l : List α, t ∈ l →
      ∃ i, ∃ hi : i < l.length,
        l.findIdx? (fun x => x == t) = some i ∧ l[i] = t := by
  intro l
  induction l with
  | nil => intro h; simp at h
  | cons x xs ih =>
    intro hm
    by_cases hx : x = t
    · refine ⟨0, by simp, ?_, by simpa using hx⟩
      rw [List.findIdx?_cons]
      simp [hx]
    · have hm' : t ∈ xs := by
        rcases List.mem_cons.mp hm with h | h
        · exact absurd h.symm hx
        · exact h
      rcases ih hm' with ⟨i, hi, hfind, hget⟩
      refine ⟨i + 1, by simpa using Nat.succ_lt_succ hi, ?_, by simpa using hget⟩
      rw [List.findIdx?_cons]
      simp only [beq_iff_eq, hx, if_false]
      rw [List.findIdx?_succ, hfind]
      rfl

/-! ### The LCV selection: head of the stable sort is the first minimizer -/

/-- `_select_best_slot_lcv` on a non-empty candidate list returns the
candidate with the minimum soft penalty, and among equal-penalty candidates
the earliest in encounter order. -/
theorem selectBest_spec (cat : Catalog) (a : Assignment) (sol : List Entry)
    (vs : List ((String × String) × Room)) (hvs : vs ≠ []) :
    ∃ i, ∃ hi : i < vs.length,
      selectBestSlotLcv cat a vs sol = some vs[i] ∧
      (∀ j, ∀ hj : j < vs.length,
        softPenalty cat a vs[i].1 sol ≤ softPenalty cat a vs[j].1 sol) ∧
      (∀ j, ∀ hj : j < vs.length, j < i →
        softPenalty cat a vs[i].1 sol < softPenalty cat a vs[j].1 sol) := by
  rcases isortL_head_key (fun x : ℚ × ((String × String) × Room) => x.1)
      (vs.map (fun sr => (softPenalty cat a sr.1 sol, sr)))
      (by simpa using hvs) with ⟨i, hi, hhead, hmin, hstrict⟩
  have hlen : (vs.map (fun sr => (softPenalty cat a sr.1 sol, sr))).length =
      vs.length := by simp
  have hi' : i < vs.length := by omega
  refine ⟨i, hi', ?_, ?_, ?_⟩
  · cases vs with
    | nil => exact absurd rfl hvs
    | cons v vs' =>
      simp only [selectBestSlotLcv]
      rcases hsorted : isortL (fun x y => decide (x.1 < y.1))
          ((v :: vs').map (fun sr => (softPenalty cat a sr.1 sol, sr))) with
        _ | ⟨s, t⟩
      · rw [hsorted] at hhead
        simp at hhead
      · rw [hsorted] at hhead
        have hs : s = ((v :: vs').map
            (fun sr => (softPenalty cat a sr.1 sol, sr)))[i] := by
          simpa using hhead
        rw [hsorted]
        simp only [hs, List.getElem_map]
  · intro j hj
    have := hmin j (by omega)
    simpa [List.getElem_map] using this
  · intro j hj hji
    have := hstrict j (by omega) hji
    simpa [List.getElem_map] using this

/-! ### Weight-reassignment invariance of the hard filter -/

/-- Replace every constraint weight according to `f`, keeping names, kinds and
enabled flags. -/
def reweight (f : String → ℚ) (cat : Catalog) : Catalog :=
  { cat with
    constraints := cat.constraints.map (fun c => { c with weight := f c.name }) }

theorem cfgFind_reweight (f : String → ℚ) (cat : Catalog) (n : String) :
    cfgFind (reweight f cat) n =
      (cfgFind cat n).map (fun c => { c with weight := f c.name }) := by
  simp only [cfgFind, reweight]
  rw [List.find?_map]
  rfl

theorem cfgEnabled_reweight (f : String → ℚ) (cat : Catalog) (n : String) :
    cfgEnabled (reweight f cat) n = cfgEnabled cat n := by
  simp only [cfgEnabled, cfgFind_reweight]
  cases cfgFind cat n <;> rfl

theorem checkHard_reweight (f : String → ℚ) (cat : Catalog) (a : Assignment)
    (slot : String × String) (rid : Nat) (sol : List Entry) :
    checkHardConstraints (reweight f cat) a slot rid sol =
      checkHardConstraints cat a slot rid sol := by
  simp only [checkHardConstraints, cfgEnabled_reweight]
  rfl

theorem getAvailableRooms_reweight (f : String → ℚ) (cat : Catalog)
    (st : String) (n : Nat) :
    getAvailableRooms (reweight f cat) st n = getAvailableRooms cat st n := by
  simp only [getAvailableRooms, cfgEnabled_reweight]
  rfl

theorem validCombinations_reweight (f : String → ℚ) (cat : Catalog)
    (a : Assignment) (sol : List Entry) :
    validCombinations (reweight f cat) a sol = validCombinations cat a sol := by
  simp only [validCombinations, getAvailableRooms_reweight]
  have hslots : prepareSlots (reweight f cat) = prepareSlots cat := rfl
  have hbs : batchSize (reweight f cat) a.batchId = batchSize cat a.batchId := rfl
  rw [hslots, hbs]
  congr 1
  funext s
  congr 1
  funext r
  rw [checkHard_reweight]

/-! ### Concrete catalogs used as witnesses and counterexamples -/

/-- A minimal feasible catalog: one day, one period, one batch, one theory
hour, one classroom. -/
def catW1 : Catalog :=
  { workingDays := ["Mon"], timeSlots := ["P1"],
    batches := [{ id := 1, numberOfStudents := 30 }],
    subjects := [{ id := 1, subjectType := "theory", credits := 3,
                   theoryHours := 1, labHours := 0 }],
    allocations := [{ batchId := 1, subjectId := 1, facultyId := 1 }],
    classrooms := [{ id := 1, capacity := some 60, computerCapacity := none }],
    labs := [], fixedSlots := [], constraints := [] }

/-- `catW1` with a fixed slot covering its only allocation. -/
def catWF : Catalog :=
  { catW1 with
    fixedSlots := [{ batchId := 1, day := "Mon", timeSlot := "P1",
                     subjectId := 1, facultyId := 1, roomId := 1,
                     roomType := "classroom" }] }

/-- An infeasible catalog: the only classroom is too small for the batch. -/
def catC5a : Catalog :=
  { workingDays := ["Mon"], timeSlots := ["P1"],
    batches := [{ id := 1, numberOfStudents := 100 }],
    subjects := [{ id := 1, subjectType := "theory", credits := 3,
                   theoryHours := 1, labHours := 0 }],
    allocations := [{ batchId := 1, subjectId := 1, facultyId := 1 }],
    classrooms := [{ id := 1, capacity := some 10, computerCapacity := none }],
    labs := [], fixedSlots := [], constraints := [] }

/-- A second infeasible catalog whose offending requirement names a different
batch, subject and faculty than `catC5a`. -/
def catC5b : Catalog :=
  { workingDays := ["Mon"], timeSlots := ["P1"],
    batches := [{ id := 2, numberOfStudents := 100 }],
    subjects := [{ id := 7, subjectType := "theory", credits := 3,
                   theoryHours := 1, labHours := 0 }],
    allocations := [{ batchId := 2, subjectId := 7, facultyId := 9 }],
    classrooms := [{ id := 1, capacity := some 10, computerCapacity := none }],
    labs := [], fixedSlots := [], constraints := [] }

/-- A catalog whose only allocation expands to no requirement (zero theory and
zero lab hours). -/
def catC6 : Catalog :=
  { workingDays := ["Mon"], timeSlots := ["P1"],
    batches := [{ id := 1, numberOfStudents := 30 }],
    subjects := [{ id := 1, subjectType := "theory", credits := 3,
                   theoryHours := 0, labHours := 0 }],
    allocations := [{ batchId := 1, subjectId := 1, facultyId := 1 }],
    classrooms := [{ id := 1, capacity := some 60, computerCapacity := none }],
    labs := [], fixedSlots := [], constraints := [] }

/-- A disabled constraint row. -/
def offRow (n : String) : ConstraintRow :=
  { name := n, ctype := "hard", enabled := false, weight := 0 }

/-- A catalog in which every constraint row — including rows named after the
division-type and no-gap rules — is disabled. -/
def catC4 : Catalog :=
  { workingDays := ["Mon"], timeSlots := ["P1"],
    batches := [{ id := 1, numberOfStudents := 30 }],
    subjects := [{ id := 1, subjectType := "practical", credits := 3,
                   theoryHours := 0, labHours := 1 },
                 { id := 2, subjectType := "theory", credits := 3,
                   theoryHours := 1, labHours := 0 }],
    allocations := [],
    classrooms := [{ id := 1, capacity := some 60, computerCapacity := none }],
    labs := [], fixedSlots := [],
    constraints := [offRow "no_faculty_conflict", offRow "no_batch_conflict",
      offRow "no_room_conflict", offRow "room_capacity",
      offRow "division_exclusivity", offRow "no_free_periods",
      offRow "slot_type_exclusivity"] }

/-- A pending theory assignment for batch 1 in `catC4`. -/
def aTheoryC4 : Assignment :=
  { batchId := 1, subjectId := 2, facultyId := 1, atype := "theory",
    duration := 1, index := 0, priority := 3 }

/-- An existing practical entry for batch 1 in the only (hence same) division
of `catC4`. -/
def solC4 : List Entry :=
  [{ batchId := 1, day := "Mon", timeSlot := "P1", subjectId := 1,
     facultyId := 2, roomId := 9, roomType := "lab", isFixed := false }]

/-! ### C3 -/

/-- C3: the CSP path is deterministic — the solver is a pure function of the
catalog snapshot (the source never consults `random` on this path, so the
embedding takes no oracle), and among the surviving `(slot, room)` candidates
the LCV selection returns the minimum-penalty candidate with ties broken by
encounter order (which is chronological, because candidates are enumerated
over the chronologically sorted slot list): every strictly earlier candidate
has a strictly larger penalty. -/
theorem cspDeterminismTieBreak :
    (∀ cat : Catalog, cspRun cat = cspRun cat) ∧
    (∀ (cat : Catalog) (a : Assignment) (sol : List Entry)
       (vs : List ((String × String) × Room)), vs ≠ [] →
      ∃ i, ∃ hi : i < vs.length,
        selectBestSlotLcv cat a vs sol = some vs[i] ∧
        (∀ j, ∀ hj : j < vs.length,
          softPenalty cat a vs[i].1 sol ≤ softPenalty cat a vs[j].1 sol) ∧
        (∀ j, ∀ hj : j < vs.length, j < i →
          softPenalty cat a vs[i].1 sol < softPenalty cat a vs[j].1 sol)) :=
  ⟨fun _ => rfl, fun cat a sol vs h => selectBest_spec cat a sol vs h⟩

/-- Witness for C3 at a concrete candidate list. -/
theorem cspDeterminismTieBreak_witness :
    ([ (("Mon", "P1"),
        ({ id := 1, capacity := some 60, computerCapacity := none } : Room)) ]
      ≠ ([] : List ((String × String) × Room))) ∧
    (∃ i, ∃ hi : i < [ (("Mon", "P1"),
        ({ id := 1, capacity := some 60, computerCapacity := none } : Room)) ].length,
      selectBestSlotLcv catW1
        { batchId := 1, subjectId := 1, facultyId := 1, atype := "theory",
          duration := 1, index := 0, priority := 3 }
        [ (("Mon", "P1"),
           ({ id := 1, capacity := some 60, computerCapacity := none } : Room)) ]
        [] = some [ (("Mon", "P1"),
           ({ id := 1, capacity := some 60, computerCapacity := none } : Room)) ][i]) := by
  refine ⟨by decide, ?_⟩
  rcases cspDeterminismTieBreak.2 catW1
      { batchId := 1, subjectId := 1, facultyId := 1, atype := "theory",
        duration := 1, index := 0, priority := 3 }
      []
      [ (("Mon", "P1"),
         ({ id := 1, capacity := some 60, computerCapacity := none } : Room)) ]
      (by decide) with ⟨i, hi, hsel, _, _⟩
  exact ⟨i, hi, hsel⟩

/-! ### C4 -/

/-- C4 (amended): the four hard constraints that have enabled flags —
faculty conflict, batch conflict, room conflict and room capacity — are
removed from the hard filter when their flags are off, and no constraint
weight plays any role in hard gating (reassigning every weight leaves the
surviving candidate set unchanged); however the division-type and no-gap
checks are applied unconditionally, so with the four flags off the hard filter
reduces exactly to the block-fit, division-type and no-gap tests. -/
theorem hardConstraintToggles (cat : Catalog) (a : Assignment)
    (slot : String × String) (rid : Nat) (sol : List Entry) (f : String → ℚ)
    (h1 : cfgEnabled cat "no_faculty_conflict" = false)
    (h2 : cfgEnabled cat "no_batch_conflict" = false)
    (h3 : cfgEnabled cat "no_room_conflict" = false)
    (h4 : cfgEnabled cat "room_capacity" = false) :
    checkHardConstraints cat a slot rid sol =
      ((a.duration != 1 &&
        (if a.duration == 1 then [slot]
         else findConsecutiveSlots cat slot.1 slot.2 a.duration).isEmpty) ||
       checkSlotTypeConstraint cat a slot sol ||
       checkConsecutiveFreePeriod cat a slot sol) ∧
    validCombinations (reweight f cat) a sol = validCombinations cat a sol := by
  constructor
  · have hany : (sol.any fun _ => false) = false := by
      simp
    simp only [checkHardConstraints, h1, h2, h3, h4, Bool.false_and,
      Bool.or_self, Bool.false_or, Bool.and_false, hany]
    by_cases hd : a.duration = 1 <;>
      rcases hF : findConsecutiveSlots cat slot.1 slot.2 a.duration with _ | ⟨x, xs⟩ <;>
      simp [hd, hF, bne_iff_ne, Bool.or_assoc]
  · exact validCombinations_reweight f cat a sol

/-- Witness for C4 at a concrete disabled configuration. -/
theorem hardConstraintToggles_witness :
    (cfgEnabled catC4 "no_faculty_conflict" = false ∧
     cfgEnabled catC4 "no_batch_conflict" = false ∧
     cfgEnabled catC4 "no_room_conflict" = false ∧
     cfgEnabled catC4 "room_capacity" = false) ∧
    checkHardConstraints catC4 aTheoryC4 ("Mon", "P1") 1 solC4 =
      ((aTheoryC4.duration != 1 &&
        (if aTheoryC4.duration == 1 then [("Mon", "P1")]
         else findConsecutiveSlots catC4 "Mon" "P1" aTheoryC4.duration).isEmpty) ||
       checkSlotTypeConstraint catC4 aTheoryC4 ("Mon", "P1") solC4 ||
       checkConsecutiveFreePeriod catC4 aTheoryC4 ("Mon", "P1") solC4) := by
  refine ⟨⟨by decide, by decide, by decide, by decide⟩, ?_⟩
  exact (hardConstraintToggles catC4 aTheoryC4 ("Mon", "P1") 1 solC4
    (fun _ => 42) (by decide) (by decide) (by decide) (by decide)).1

/-- C4 counterexample to the claim as stated: in a configuration where every
constraint row (whatever its name) is disabled, the hard filter still rejects
a theory candidate because the division-type check runs unconditionally — so
the division-type exclusivity constraint cannot be removed by any
ConstraintSpec enabled flag. -/
theorem hardConstraintToggles_cex :
    (∀ c ∈ catC4.constraints, c.enabled = false) ∧
    checkSlotTypeConstraint catC4 aTheoryC4 ("Mon", "P1") solC4 = true ∧
    checkHardConstraints catC4 aTheoryC4 ("Mon", "P1") 1 solC4 = true := by
  refine ⟨by decide, by decide, by decide⟩

/-! ### C5 -/

/-- C5 (amended): when some requirement has zero surviving `(slot, room)`
combinations the solve aborts at once — no backtracking, no retry and no
partial result: the remaining assignments are never visited and `run()`
raises; but the raised error is the fixed message
`"Failed to find valid timetable. Try relaxing constraints."`, which does not
identify the offending requirement. -/
theorem infeasibleFailFast (cat : Catalog) :
    (∀ (a : Assignment) (rest : List Assignment) (sol : List Entry),
      validCombinations cat a sol = [] →
      solveSteps cat (a :: rest) sol = none) ∧
    (cat.batches ≠ [] → cat.allocations ≠ [] → cat.classrooms ≠ [] →
      smartSolve cat = none →
      cspRun cat =
        .error "Failed to find valid timetable. Try relaxing constraints.") := by
  constructor
  · intro a rest sol h
    simp [solveSteps, h]
  · intro hb ha hc hs
    simp only [cspRun, List.isEmpty_iff]
    rw [if_neg hb, if_neg ha, if_neg hc, hs]

/-- Witness for C5 at a concrete infeasible catalog. -/
theorem infeasibleFailFast_witness :
    (catC5a.batches ≠ [] ∧ catC5a.allocations ≠ [] ∧ catC5a.classrooms ≠ [] ∧
     smartSolve catC5a = none) ∧
    cspRun catC5a =
      .error "Failed to find valid timetable. Try relaxing constraints." := by
  refine ⟨⟨by decide, by decide, by decide, by decide⟩, ?_⟩
  exact (infeasibleFailFast catC5a).2 (by decide) (by decide) (by decide)
    (by decide)

/-- C5 counterexample to the claim as stated: two catalogs whose offending
requirements differ (batch 1 / subject 1 / faculty 1 versus batch 2 /
subject 7 / faculty 9) produce the very same error value, so the raised error
identifies no requirement; the raise is also a plain `ValueError`, not an
`InfeasibleScheduleError`. -/
theorem infeasibleFailFast_cex :
    cspRun catC5a =
      .error "Failed to find valid timetable. Try relaxing constraints." ∧
    cspRun catC5b =
      .error "Failed to find valid timetable. Try relaxing constraints." ∧
    (prepareAssignments catC5a).map
        (fun a => (a.batchId, a.subjectId, a.facultyId)) = [(1, 1, 1)] ∧
    (prepareAssignments catC5b).map
        (fun a => (a.batchId, a.subjectId, a.facultyId)) = [(2, 7, 9)] := by
  refine ⟨by decide, by decide, by decide, by decide⟩

/-! ### C6 -/

/-- C6 (amended): when requirement expansion yields nothing to schedule, the
genetic algorithm's construction fails with
`"No slot requirements generated."`; the CSP performs no such check — it
proceeds to solve the empty assignment list and returns the fixed slots alone
(an empty schedule when there are none). -/
theorem emptyRequirementsCheck (cat : Catalog) (hb : cat.batches ≠ [])
    (ha : cat.allocations ≠ []) (hc : cat.classrooms ≠ []) :
    ((slotRequirements cat).isEmpty →
      gaLoadData cat = .error "No slot requirements generated.") ∧
    (prepareAssignments cat = [] →
      cspRun cat = .ok (applyFixedSlots cat,
        [{ iteration := 0, conflicts := 0,
           method := "Enhanced CSP with Soft Subject Distribution" }])) := by
  constructor
  · intro h
    simp only [gaLoadData, List.isEmpty_iff]
    rw [if_neg hb, if_neg ha, if_neg hc, if_pos (List.isEmpty_iff.mp h)]
  · intro h
    simp only [cspRun, List.isEmpty_iff, smartSolve, h, solveSteps]
    rw [if_neg hb, if_neg ha, if_neg hc]

/-- Witness for C6 at a concrete catalog with an allocation whose subject has
zero theory and zero lab hours. -/
theorem emptyRequirementsCheck_witness :
    (catC6.batches ≠ [] ∧ catC6.allocations ≠ [] ∧ catC6.classrooms ≠ [] ∧
     (slotRequirements catC6).isEmpty = true) ∧
    gaLoadData catC6 = .error "No slot requirements generated." := by
  refine ⟨⟨by decide, by decide, by decide, by decide⟩, ?_⟩
  exact (emptyRequirementsCheck catC6 (by decide) (by decide) (by decide)).1
    (by decide)

/-- C6 counterexample to the claim as stated: on `catC6` requirement expansion
produces nothing, yet the CSP solver does not fail — it returns an empty
schedule with a normal trace instead of raising any error. -/
theorem emptyRequirementsCheck_cex :
    prepareAssignments catC6 = [] ∧
    cspRun catC6 = .ok ([],
      [{ iteration := 0, conflicts := 0,
         method := "Enhanced CSP with Soft Subject Distribution" }]) := by
  refine ⟨by decide, by decide⟩

/-! ### Swap permutations and the mutation frame -/

theorem perm_consSet {α : Type} :
    ∀ (xs : List α) (n : Nat), ∀ hn : n < xs.length, ∀ x : α,
      (xs[n] :: xs.set n x).Perm (x :: xs) := by
  intro xs
  induction xs with
  | nil => intro n hn; simp at hn
  | cons y ys ih =>
    intro n hn x
    cases n with
    | zero =>
      simpa using List.Perm.swap x y ys
    | succ m =>
      have hm : m < ys.length := by simpa using hn
      have h0 : (y :: ys)[m + 1] :: (y :: ys).set (m + 1) x
          = ys[m] :: y :: ys.set m x := by simp
      rw [h0]
      exact (List.Perm.swap y ys[m] (ys.set m x)).trans
        (((ih m hm x).cons y).trans (List.Perm.swap x y ys))

theorem perm_set_swap {α : Type} :
    ∀ (l : List α) (i j : Nat), ∀ hi : i < l.length, ∀ hj : j < l.length,
      ((l.set i l[j]).set j l[i]).Perm l := by
  intro l
  induction l with
  | nil => intro i j hi; simp at hi
  | cons x xs ih =>
    intro i j hi hj
    cases i with
    | zero =>
      cases j with
      | zero => simp
      | succ n =>
        have hn : n < xs.length := by simpa using hj
        have : ((x :: xs).set 0 (x :: xs)[n + 1]).set (n + 1) (x :: xs)[0] =
            xs[n] :: xs.set n x := by simp
        rw [this]
        exact perm_consSet xs n hn x
    | succ m =>
      have hm : m < xs.length := by simpa using hi
      cases j with
      | zero =>
        have : ((x :: xs).set (m + 1) (x :: xs)[0]).set 0 (x :: xs)[m + 1] =
            xs[m] :: xs.set m x := by simp
        rw [this]
        exact perm_consSet xs m hm x
      | succ n =>
        have hn : n < xs.length := by simpa using hj
        have : ((x :: xs).set (m + 1) (x :: xs)[n + 1]).set (n + 1) (x :: xs)[m + 1] =
            x :: (xs.set m xs[n]).set n xs[m] := by simp
        rw [this]
        exact (ih m n hm hn).cons x

theorem swapDayTime_length (tt : List Entry) (i j : Nat) :
    (swapDayTime tt i j).length = tt.length := by
  simp [swapDayTime]

/-- The swap only exchanges `(day, time_slot)`; every other field at every
position is unchanged. -/
theorem swapDayTime_fields (tt : List Entry) (i j : Nat)
    (hi : i < tt.length) (hj : j < tt.length) (k : Nat)
    (hk : k < tt.length) (hk' : k < (swapDayTime tt i j).length) :
    (swapDayTime tt i j)[k].batchId = tt[k].batchId ∧
    (swapDayTime tt i j)[k].subjectId = tt[k].subjectId ∧
    (swapDayTime tt i j)[k].facultyId = tt[k].facultyId ∧
    (swapDayTime tt i j)[k].roomId = tt[k].roomId ∧
    (swapDayTime tt i j)[k].roomType = tt[k].roomType ∧
    (swapDayTime tt i j)[k].isFixed = tt[k].isFixed := by
  have e1 : tt.getD i default = tt[i] := List.getD_eq_getElem _ _ hi
  have e2 : tt.getD j default = tt[j] := List.getD_eq_getElem _ _ hj
  have hset : (swapDayTime tt i j)[k] =
      if j = k then { tt[j] with day := tt[i].day, timeSlot := tt[i].timeSlot }
      else if i = k then { tt[i] with day := tt[j].day, timeSlot := tt[j].timeSlot }
      else tt[k] := by
    simp only [swapDayTime, e1, e2]
    rw [List.getElem_set]
    by_cases hjk : j = k
    · simp [hjk]
    · simp only [hjk, if_false]
      rw [List.getElem_set]
  rw [hset]
  by_cases hjk : j = k
  · subst hjk
    simp
  · by_cases hik : i = k
    · subst hik
      simp [hjk]
    · simp [hjk, hik]

theorem swapDayTime_untouched (tt : List Entry) (i j k : Nat)
    (hki : k ≠ i) (hkj : k ≠ j) :
    (swapDayTime tt i j)[k]? = tt[k]? := by
  simp only [swapDayTime]
  rw [List.getElem?_set_ne (by omega), List.getElem?_set_ne (by omega)]

theorem swapDayTime_perm_dayTime (tt : List Entry) (i j : Nat)
    (hi : i < tt.length) (hj : j < tt.length) :
    ((swapDayTime tt i j).map (fun e => (e.day, e.timeSlot))).Perm
      (tt.map (fun e => (e.day, e.timeSlot))) := by
  have e1 : tt.getD i default = tt[i] := List.getD_eq_getElem _ _ hi
  have e2 : tt.getD j default = tt[j] := List.getD_eq_getElem _ _ hj
  have hi' : i < (tt.map (fun e => (e.day, e.timeSlot))).length := by simpa using hi
  have hj' : j < (tt.map (fun e => (e.day, e.timeSlot))).length := by simpa using hj
  have hmap : (swapDayTime tt i j).map (fun e => (e.day, e.timeSlot)) =
      ((tt.map (fun e => (e.day, e.timeSlot))).set i
          (tt.map (fun e => (e.day, e.timeSlot)))[j]).set j
        (tt.map (fun e => (e.day, e.timeSlot)))[i] := by
    simp only [swapDayTime, List.map_set, e1, e2]
    simp [List.getElem_map]
  rw [hmap]
  exact perm_set_swap _ i j hi' hj'

theorem mutLoop_succ_false (o : Oracle) (nfi : List Nat) (att : Nat)
    (tt : List Entry) (p : Nat) (hc : rbool o p = false) :
    mutLoop o nfi (att + 1) tt p = mutLoop o nfi att tt (p + 1) := by
  simp [mutLoop, hc]

theorem mutLoop_succ_true (o : Oracle) (nfi : List Nat) (att : Nat)
    (tt : List Entry) (p : Nat) (hc : rbool o p = true)
    (h2 : 2 ≤ nfi.length) :
    ∃ i j, i ∈ nfi ∧ j ∈ nfi ∧
      mutLoop o nfi (att + 1) tt p = mutLoop o nfi att (swapDayTime tt i j) (p + 3) := by
  have hn : 0 < nfi.length := by omega
  have hpos1 : rnat o (p + 1) nfi.length < nfi.length := Nat.mod_lt _ hn
  have hq : rnat o (p + 2) (nfi.length - 1) < nfi.length - 1 :=
    Nat.mod_lt _ (by omega)
  have hpos2 :
      (if rnat o (p + 1) nfi.length ≤ rnat o (p + 2) (nfi.length - 1) then
        rnat o (p + 2) (nfi.length - 1) + 1
       else rnat o (p + 2) (nfi.length - 1)) < nfi.length := by
    split <;> omega
  refine ⟨nfi.getD (rnat o (p + 1) nfi.length) 0,
    nfi.getD (if rnat o (p + 1) nfi.length ≤ rnat o (p + 2) (nfi.length - 1) then
      rnat o (p + 2) (nfi.length - 1) + 1
     else rnat o (p + 2) (nfi.length - 1)) 0, ?_, ?_, ?_⟩
  · rw [List.getD_eq_getElem _ _ hpos1]
    exact List.getElem_mem _
  · rw [List.getD_eq_getElem _ _ hpos2]
    exact List.getElem_mem _
  · simp [mutLoop, hc]

/-- The attempt loop of `_mutate` preserves length, preserves every field of
every gene except `(day, time_slot)`, permutes the `(day, time_slot)` pairs,
and never writes to a position outside the non-fixed index list. -/
theorem mutLoop_spec (o : Oracle) (nfi : List Nat) (h2 : 2 ≤ nfi.length) :
    ∀ (att : Nat) (tt : List Entry) (p : Nat), (∀ x ∈ nfi, x < tt.length) →
      (mutLoop o nfi att tt p).1.length = tt.length ∧
      (∀ k, ∀ hk : k < tt.length, ∀ hk' : k < (mutLoop o nfi att tt p).1.length,
        (mutLoop o nfi att tt p).1[k].batchId = tt[k].batchId ∧
        (mutLoop o nfi att tt p).1[k].subjectId = tt[k].subjectId ∧
        (mutLoop o nfi att tt p).1[k].facultyId = tt[k].facultyId ∧
        (mutLoop o nfi att tt p).1[k].roomId = tt[k].roomId ∧
        (mutLoop o nfi att tt p).1[k].roomType = tt[k].roomType ∧
        (mutLoop o nfi att tt p).1[k].isFixed = tt[k].isFixed) ∧
      ((mutLoop o nfi att tt p).1.map (fun e => (e.day, e.timeSlot))).Perm
        (tt.map (fun e => (e.day, e.timeSlot))) ∧
      (∀ k, k ∉ nfi → (mutLoop o nfi att tt p).1[k]? = tt[k]?) := by
  intro att
  induction att with
  | zero =>
    intro tt p _
    exact ⟨rfl, fun k hk hk' => ⟨rfl, rfl, rfl, rfl, rfl, rfl⟩,
      List.Perm.refl _, fun k _ => rfl⟩
  | succ att ih =>
    intro tt p hbound
    by_cases hc : rbool o p
    · rcases mutLoop_succ_true o nfi att tt p hc h2 with ⟨i, j, hi, hj, hstep⟩
      have hilt : i < tt.length := hbound i hi
      have hjlt : j < tt.length := hbound j hj
      have hbound' : ∀ x ∈ nfi, x < (swapDayTime tt i j).length := by
        intro x hx
        rw [swapDayTime_length]
        exact hbound x hx
      rcases ih (swapDayTime tt i j) (p + 3) hbound' with
        ⟨hlen, hfields, hperm, huntouched⟩
      rw [hstep]
      refine ⟨by rw [hlen, swapDayTime_length], ?_, ?_, ?_⟩
      · intro k hk hk'
        have hkswap : k < (swapDayTime tt i j).length := by
          rw [swapDayTime_length]; exact hk
        rcases hfields k hkswap hk' with ⟨f1, f2, f3, f4, f5, f6⟩
        rcases swapDayTime_fields tt i j hilt hjlt k hk hkswap with
          ⟨g1, g2, g3, g4, g5, g6⟩
        exact ⟨f1.trans g1, f2.trans g2, f3.trans g3, f4.trans g4,
          f5.trans g5, f6.trans g6⟩
      · exact hperm.trans (swapDayTime_perm_dayTime tt i j hilt hjlt)
      · intro k hk
        rw [huntouched k hk, swapDayTime_untouched tt i j k
          (fun h => hk (h ▸ hi)) (fun h => hk (h ▸ hj))]
    · rw [mutLoop_succ_false o nfi att tt p (by simpa using hc)]
      exact ih tt (p + 1) hbound

/-- `_mutate` preserves length, keeps every gene's identity fields, permutes
the `(day, time_slot)` pairs, and leaves every fixed gene untouched at its
position. -/
theorem mutateGA_spec (ps : GaParams) (o : Oracle) (p : Nat) (tt : List Entry) :
    (mutateGA ps o p tt).1.length = tt.length ∧
    (∀ k, ∀ hk : k < tt.length, ∀ hk' : k < (mutateGA ps o p tt).1.length,
      (mutateGA ps o p tt).1[k].batchId = tt[k].batchId ∧
      (mutateGA ps o p tt).1[k].subjectId = tt[k].subjectId ∧
      (mutateGA ps o p tt).1[k].facultyId = tt[k].facultyId ∧
      (mutateGA ps o p tt).1[k].roomId = tt[k].roomId ∧
      (mutateGA ps o p tt).1[k].roomType = tt[k].roomType ∧
      (mutateGA ps o p tt).1[k].isFixed = tt[k].isFixed) ∧
    ((mutateGA ps o p tt).1.map (fun e => (e.day, e.timeSlot))).Perm
      (tt.map (fun e => (e.day, e.timeSlot))) ∧
    (∀ k, ∀ hk : k < tt.length, tt[k].isFixed = true →
      (mutateGA ps o p tt).1[k]? = tt[k]?) := by
  by_cases hlt : ((List.range tt.length).filter
      (fun i => !(tt.getD i default).isFixed)).length < 2
  · have hid : mutateGA ps o p tt = (tt, p) := by
      simp only [mutateGA]
      rw [if_pos hlt]
    rw [hid]
    exact ⟨rfl, fun k hk hk' => ⟨rfl, rfl, rfl, rfl, rfl, rfl⟩,
      List.Perm.refl _, fun k _ _ => rfl⟩
  · have h2 : 2 ≤ ((List.range tt.length).filter
        (fun i => !(tt.getD i default).isFixed)).length := by omega
    have hbound : ∀ x ∈ (List.range tt.length).filter
        (fun i => !(tt.getD i default).isFixed), x < tt.length := by
      intro x hx
      have := List.mem_filter.mp hx
      exact List.mem_range.mp this.1
    have hstep : mutateGA ps o p tt =
        mutLoop o ((List.range tt.length).filter
          (fun i => !(tt.getD i default).isFixed))
          ((Rat.floor ((((List.range tt.length).filter
            (fun i => !(tt.getD i default).isFixed)).length : ℚ) *
            ps.mutationRate)).toNat + 1) tt p := by
      simp only [mutateGA]
      rw [if_neg hlt]
    rcases mutLoop_spec o _ h2 ((Rat.floor ((((List.range tt.length).filter
        (fun i => !(tt.getD i default).isFixed)).length : ℚ) *
        ps.mutationRate)).toNat + 1) tt p hbound with
      ⟨hlen, hfields, hperm, huntouched⟩
    rw [hstep]
    refine ⟨hlen, hfields, hperm, ?_⟩
    intro k hk hfix
    apply huntouched
    intro hkmem
    have := (List.mem_filter.mp hkmem).2
    rw [List.getD_eq_getElem _ _ hk, hfix] at this
    simp at this

/-! ### Crossover lemmas -/

theorem crossoverGA_fixed_mem (o : Oracle) (p : Nat) (par1 par2 : List Entry)
    (e : Entry) (he : e.isFixed = true) (h1 : e ∈ par1) (h2 : e ∈ par2) :
    e ∈ (crossoverGA o p par1 par2).1.1 ∧ e ∈ (crossoverGA o p par1 par2).1.2 := by
  by_cases hc : rbool o p
  · simp only [crossoverGA, hc, if_true]
    exact ⟨h1, h2⟩
  · have hmem : e ∈ par1.filter (fun s => s.isFixed) :=
      List.mem_filter.mpr ⟨h1, by simp [he]⟩
    simp only [crossoverGA, hc, Bool.false_eq_true, if_false]
    exact ⟨List.mem_append_left _ (List.mem_append_left _ hmem),
      List.mem_append_left _ (List.mem_append_left _ hmem)⟩

theorem getD_isFixed_false (l : List Entry) (hall : ∀ x ∈ l, x.isFixed = false)
    (i : Nat) : (l.getD i default).isFixed = false := by
  by_cases hlt : i < l.length
  · rw [List.getD_eq_getElem _ _ hlt]
    exact hall _ (List.getElem_mem hlt)
  · rw [List.getD_eq_getElem?_getD, List.getElem?_eq_none (by omega)]
    rfl

/-- On parents with identical fixed genes and equally many non-fixed genes,
both crossover children carry exactly the parents' fixed genes as their fixed
genes and exactly as many non-fixed genes as the parents. -/
theorem crossoverGA_filter (o : Oracle) (p : Nat) (par1 par2 : List Entry)
    (hfix : par1.filter (fun s => s.isFixed) = par2.filter (fun s => s.isFixed))
    (hnf : (par1.filter (fun s => !s.isFixed)).length =
      (par2.filter (fun s => !s.isFixed)).length) :
    (crossoverGA o p par1 par2).1.1.filter (fun s => s.isFixed) =
      par1.filter (fun s => s.isFixed) ∧
    (crossoverGA o p par1 par2).1.2.filter (fun s => s.isFixed) =
      par1.filter (fun s => s.isFixed) ∧
    ((crossoverGA o p par1 par2).1.1.filter (fun s => !s.isFixed)).length =
      (par1.filter (fun s => !s.isFixed)).length ∧
    ((crossoverGA o p par1 par2).1.2.filter (fun s => !s.isFixed)).length =
      (par1.filter (fun s => !s.isFixed)).length := by
  by_cases hc : rbool o p
  · have hcopy : crossoverGA o p par1 par2 = ((par1, par2), p + 1) := by
      simp [crossoverGA, hc]
    rw [hcopy]
    exact ⟨rfl, hfix.symm, rfl, hnf.symm⟩
  · simp only [crossoverGA, hc, Bool.false_eq_true, if_false]
    have hF : (par1.filter (fun s => s.isFixed)).filter (fun s => s.isFixed) =
        par1.filter (fun s => s.isFixed) :=
      List.filter_eq_self.mpr (fun a ha => (List.mem_filter.mp ha).2)
    have hFn : (par1.filter (fun s => s.isFixed)).filter (fun s => !s.isFixed) = [] := by
      rw [List.filter_eq_nil_iff]
      intro a ha
      have := (List.mem_filter.mp ha).2
      simp [this]
    have hnf1 : ∀ x ∈ par1.filter (fun s => !s.isFixed), x.isFixed = false := by
      intro x hx
      have := (List.mem_filter.mp hx).2
      simpa using this
    have hnf2 : ∀ x ∈ par2.filter (fun s => !s.isFixed), x.isFixed = false := by
      intro x hx
      have := (List.mem_filter.mp hx).2
      simpa using this
    have hM1 : ∀ x ∈ (List.range (min (par1.filter (fun s => !s.isFixed)).length
        (par2.filter (fun s => !s.isFixed)).length)).map (fun i =>
          if rbool o (p + 1 + i) then
            (par1.filter (fun s => !s.isFixed)).getD i default
          else (par2.filter (fun s => !s.isFixed)).getD i default),
        x.isFixed = false := by
      intro x hx
      rcases List.mem_map.mp hx with ⟨i, _, hxeq⟩
      subst hxeq
      by_cases hco : rbool o (p + 1 + i)
      · rw [if_pos hco]
        exact getD_isFixed_false _ hnf1 i
      · rw [if_neg hco]
        exact getD_isFixed_false _ hnf2 i
    have hM2 : ∀ x ∈ (List.range (min (par1.filter (fun s => !s.isFixed)).length
        (par2.filter (fun s => !s.isFixed)).length)).map (fun i =>
          if rbool o (p + 1 + i) then
            (par2.filter (fun s => !s.isFixed)).getD i default
          else (par1.filter (fun s => !s.isFixed)).getD i default),
        x.isFixed = false := by
      intro x hx
      rcases List.mem_map.mp hx with ⟨i, _, hxeq⟩
      subst hxeq
      by_cases hco : rbool o (p + 1 + i)
      · rw [if_pos hco]
        exact getD_isFixed_false _ hnf2 i
      · rw [if_neg hco]
        exact getD_isFixed_false _ hnf1 i
    have hD1 : ∀ x ∈ (par1.filter (fun s => !s.isFixed)).drop
        (min (par1.filter (fun s => !s.isFixed)).length
          (par2.filter (fun s => !s.isFixed)).length), x.isFixed = false :=
      fun x hx => hnf1 x (List.mem_of_mem_drop hx)
    have hD2 : ∀ x ∈ (par2.filter (fun s => !s.isFixed)).drop
        (min (par1.filter (fun s => !s.isFixed)).length
          (par2.filter (fun s => !s.isFixed)).length), x.isFixed = false :=
      fun x hx => hnf2 x (List.mem_of_mem_drop hx)
    have hfilterTrue : ∀ (l : List Entry), (∀ x ∈ l, x.isFixed = false) →
        l.filter (fun s => s.isFixed) = [] := by
      intro l hl
      rw [List.filter_eq_nil_iff]
      intro a ha
      simp [hl a ha]
    have hfilterFalse : ∀ (l : List Entry), (∀ x ∈ l, x.isFixed = false) →
        l.filter (fun s => !s.isFixed) = l := by
      intro l hl
      apply List.filter_eq_self.mpr
      intro a ha
      simp [hl a ha]
    refine ⟨?_, ?_, ?_, ?_⟩
    · simp only [List.filter_append, hF, hfilterTrue _ hM1, hfilterTrue _ hD1,
        List.append_nil]
    · simp only [List.filter_append, hF, hfilterTrue _ hM2, hfilterTrue _ hD2,
        List.append_nil]
    · simp only [List.filter_append, hFn, hfilterFalse _ hM1, hfilterFalse _ hD1,
        List.nil_append, List.length_append, List.length_map, List.length_range,
        List.length_drop]
      omega
    · simp only [List.filter_append, hFn, hfilterFalse _ hM2, hfilterFalse _ hD2,
        List.nil_append, List.length_append, List.length_map, List.length_range,
        List.length_drop]
      omega

/-! ### Random initialization only appends to the fixed-slot base -/

theorem crtLoop_keeps_acc (cat : Catalog) (o : Oracle) :
    ∀ (reqs : List Req) (acc : List Entry) (p : Nat) (tt : List Entry) (p' : Nat),
      crtLoop cat o reqs acc p = .ok (tt, p') → ∃ rest, tt = acc ++ rest := by
  intro reqs
  induction reqs with
  | nil =>
    intro acc p tt p' h
    simp only [crtLoop] at h
    exact ⟨[], by simpa using (congrArg Prod.fst (Except.ok.inj h)).symm⟩
  | cons req rest ih =>
    intro acc p tt p' h
    simp only [crtLoop] at h
    by_cases ht : req.rtype == "theory"
    · rw [if_pos ht] at h
      rcases hd : pick cat.workingDays o p with e | dp
      · rw [hd] at h
        simp [bind, Except.bind] at h
      · rw [hd] at h
        simp only [bind, Except.bind] at h
        rcases hts : pick cat.timeSlots o dp.2 with e | tp
        · rw [hts] at h
          simp [bind, Except.bind] at h
        · rw [hts] at h
          simp only [bind, Except.bind] at h
          rcases hr : pick cat.classrooms o tp.2 with e | rp
          · rw [hr] at h
            simp [bind, Except.bind] at h
          · rw [hr] at h
            simp only [bind, Except.bind] at h
            rcases ih _ _ _ _ h with ⟨r, hreq⟩
            exact ⟨_, by rw [hreq, List.append_assoc]⟩
    · rw [if_neg ht] at h
      by_cases hp : req.rtype == "practical"
      · rw [if_pos hp] at h
        rcases hd : pick cat.workingDays o p with e | dp
        · rw [hd] at h
          simp [bind, Except.bind] at h
        · rw [hd] at h
          simp only [bind, Except.bind] at h
          by_cases hl : cat.labs.isEmpty
          · rw [if_pos hl] at h
            rcases hr : pick cat.classrooms o (dp.2 + 1) with e | rp
            · rw [hr] at h
              simp [bind, Except.bind, Except.map] at h
            · rw [hr] at h
              simp only [bind, Except.bind, Except.map] at h
              rcases ih _ _ _ _ h with ⟨r, hreq⟩
              exact ⟨_, by rw [hreq, List.append_assoc]⟩
          · rw [if_neg hl] at h
            rcases hr : pick cat.labs o (dp.2 + 1) with e | rp
            · rw [hr] at h
              simp [bind, Except.bind, Except.map] at h
            · rw [hr] at h
              simp only [bind, Except.bind, Except.map] at h
              rcases ih _ _ _ _ h with ⟨r, hreq⟩
              exact ⟨_, by rw [hreq, List.append_assoc]⟩
      · rw [if_neg hp] at h
        exact ih _ _ _ _ h

/-- Every entry built from a fixed slot appears in every successfully created
random timetable. -/
theorem createRandomTimetable_fixed (cat : Catalog) (o : Oracle) (p : Nat)
    (tt : List Entry) (p' : Nat)
    (h : createRandomTimetable cat o p = .ok (tt, p'))
    (fs : FixedSlot) (hfs : fs ∈ cat.fixedSlots) : Entry.ofFixed fs ∈ tt := by
  rcases crtLoop_keeps_acc cat o (slotRequirements cat) (applyFixedSlots cat)
      p tt p' h with ⟨rest, hr⟩
  rw [hr]
  exact List.mem_append_left _ (List.mem_map.mpr ⟨fs, hfs, rfl⟩)

/-! ### Structure of the CSP solution -/

/-- All entries of `es` lie on one day at consecutive period indices of the
calendar (`tIdx + k` is the period index of the `k`-th entry). -/
def consecutiveBlock (cat : Catalog) (es : List Entry) : Prop :=
  ∃ day tIdx, tIdx + es.length ≤ cat.timeSlots.length ∧
    ∀ k, ∀ hk : k < es.length,
      es[k].day = day ∧ es[k].timeSlot = cat.timeSlots.getD (tIdx + k) ""

theorem consecFrom_spec (ts : List String) (day : String) :
    ∀ (k tIdx : Nat) (l : List (String × String)),
      consecFrom ts day tIdx k = some l →
      l.length = k ∧ (k ≠ 0 → tIdx + k ≤ ts.length) ∧
        ∀ m, ∀ hm : m < l.length, l[m] = (day, ts.getD (tIdx + m) "") := by
  intro k
  induction k with
  | zero =>
    intro tIdx l h
    simp only [consecFrom] at h
    rcases h
    exact ⟨rfl, fun h0 => absurd rfl h0, fun m hm => by simp at hm⟩
  | succ k ih =>
    intro tIdx l h
    simp only [consecFrom] at h
    rcases hget : ts[tIdx]? with _ | t
    · rw [hget] at h
      simp at h
    · rw [hget] at h
      rcases hrec : consecFrom ts day (tIdx + 1) k with _ | l'
      · rw [hrec] at h
        simp at h
      · rw [hrec] at h
        simp only [Option.map_some] at h
        rcases h
        have hlt : tIdx < ts.length := by
          by_contra hge
          rw [List.getElem?_eq_none (by omega)] at hget
          exact Option.noConfusion hget
        rcases ih (tIdx + 1) l' hrec with ⟨hlen, hb, hall⟩
        refine ⟨by simp [hlen], ?_, ?_⟩
        · intro _
          rcases Nat.eq_zero_or_pos k with hk0 | hkpos
          · omega
          · have := hb (by omega)
            omega
        · intro m hm
          cases m with
          | zero =>
            have ht : ts.getD tIdx "" = t := by
              rw [List.getD_eq_getElem?_getD, hget]
              rfl
            simp [ht.symm]
          | succ m' =>
            have hm' : m' < l'.length := by simpa using hm
            have := hall m' hm'
            simpa [Nat.add_assoc, Nat.add_comm 1 m'] using this

theorem findConsecutiveSlots_spec (cat : Catalog) (d t : String) (dur : Nat)
    (hne : findConsecutiveSlots cat d t dur ≠ []) :
    ∃ tIdx, timeIdx cat t = some tIdx ∧
      (findConsecutiveSlots cat d t dur).length = dur ∧
      (dur ≠ 0 → tIdx + dur ≤ cat.timeSlots.length) ∧
      ∀ m, ∀ hm : m < (findConsecutiveSlots cat d t dur).length,
        (findConsecutiveSlots cat d t dur)[m] = (d, cat.timeSlots.getD (tIdx + m) "") := by
  rcases hd : dayIdx cat d with _ | di
  · exfalso
    apply hne
    simp [findConsecutiveSlots, hd]
  · rcases ht : timeIdx cat t with _ | tIdx
    · exfalso
      apply hne
      simp [findConsecutiveSlots, hd, ht]
    · have hkey : findConsecutiveSlots cat d t dur =
          (consecFrom cat.timeSlots d tIdx dur).getD [] := by
        simp [findConsecutiveSlots, hd, ht]
      rw [hkey] at hne ⊢
      rcases hc : consecFrom cat.timeSlots d tIdx dur with _ | l
      · rw [hc] at hne
        exact absurd rfl hne
      · rcases consecFrom_spec cat.timeSlots d dur tIdx l hc with ⟨hlen, hb, hall⟩
        exact ⟨tIdx, rfl, by simpa using hlen, hb, by simpa using hall⟩

theorem mem_prepareSlots_time (cat : Catalog) (s : String × String)
    (h : s ∈ prepareSlots cat) : s.2 ∈ cat.timeSlots := by
  rw [prepareSlots, mem_isortL] at h
  rcases List.mem_flatMap.mp h with ⟨d, _, hs⟩
  rcases List.mem_map.mp hs with ⟨t, htm, hst⟩
  rw [← hst]
  exact htm

theorem mem_validCombinations (cat : Catalog) (a : Assignment)
    (sol : List Entry) (x : (String × String) × Room)
    (hx : x ∈ validCombinations cat a sol) :
    x.1 ∈ prepareSlots cat ∧
    checkHardConstraints cat a x.1 x.2.id sol = false := by
  rcases List.mem_flatMap.mp hx with ⟨s, hsmem, hsx⟩
  rcases List.mem_filterMap.mp hsx with ⟨r, _, hr⟩
  by_cases hh : checkHardConstraints cat a s r.id sol
  · rw [if_pos hh] at hr
    exact Option.noConfusion hr
  · rw [if_neg hh] at hr
    have hxsr : x = (s, r) := (Option.some.inj hr).symm
    subst hxsr
    exact ⟨hsmem, by simpa using hh⟩

/-- From a passing hard-constraint check: the block that `_assign_slot` builds
has exactly `duration` entries, lies on one day at consecutive periods, and
carries the assignment's batch, subject and faculty. -/
theorem assignSlot_block (cat : Catalog) (a : Assignment)
    (slot : String × String) (room : Room) (sol : List Entry)
    (hhard : checkHardConstraints cat a slot room.id sol = false)
    (hmem : slot.2 ∈ cat.timeSlots) :
    (assignSlot cat a slot room).length = a.duration ∧
    consecutiveBlock cat (assignSlot cat a slot room) ∧
    ∀ e ∈ assignSlot cat a slot room, e.batchId = a.batchId ∧
      e.subjectId = a.subjectId ∧ e.facultyId = a.facultyId := by
  by_cases hd1 : a.duration = 1
  · have hbranch : assignSlot cat a slot room =
        [{ batchId := a.batchId, day := slot.1, timeSlot := slot.2,
           subjectId := a.subjectId, facultyId := a.facultyId,
           roomId := room.id,
           roomType := if a.atype == "lab" then "lab" else "classroom",
           isFixed := false }] := by
      simp [assignSlot, hd1]
    rw [hbranch]
    rcases findIdx_of_mem slot.2 cat.timeSlots hmem with ⟨i, hi, hfind, hget⟩
    refine ⟨by simp [hd1], ⟨slot.1, i, by simpa using hi, ?_⟩, ?_⟩
    · intro k hk
      have hk0 : k = 0 := by simpa using hk
      subst hk0
      refine ⟨rfl, ?_⟩
      show slot.2 = cat.timeSlots.getD (i + 0) ""
      rw [Nat.add_zero, List.getD_eq_getElem _ _ hi, hget]
    · intro e he
      have : e = _ := List.mem_singleton.mp he
      subst this
      exact ⟨rfl, rfl, rfl⟩
  · have hCfalse : (a.duration != 1 &&
        (if a.duration == 1 then [slot]
         else findConsecutiveSlots cat slot.1 slot.2 a.duration).isEmpty) = false := by
      by_contra hC
      have hC' : (a.duration != 1 &&
          (if a.duration == 1 then [slot]
           else findConsecutiveSlots cat slot.1 slot.2 a.duration).isEmpty) = true := by
        revert hC
        cases (a.duration != 1 &&
          (if a.duration == 1 then [slot]
           else findConsecutiveSlots cat slot.1 slot.2 a.duration).isEmpty) <;> simp
      have : checkHardConstraints cat a slot room.id sol = true := by
        simp only [checkHardConstraints]
        rw [if_pos hC']
      rw [this] at hhard
      exact Bool.noConfusion hhard
    have hne : findConsecutiveSlots cat slot.1 slot.2 a.duration ≠ [] := by
      have hd1' : (a.duration != 1) = true := by simpa using hd1
      rw [hd1', Bool.true_and] at hCfalse
      rw [if_neg (by simpa using hd1)] at hCfalse
      simpa [List.isEmpty_iff] using hCfalse
    rcases findConsecutiveSlots_spec cat slot.1 slot.2 a.duration hne with
      ⟨tIdx, _, hlen, hb, hall⟩
    have hdur0 : a.duration ≠ 0 := by
      intro h0
      rw [h0] at hlen hne
      exact hne (List.length_eq_zero.mp hlen)
    have hbranch : assignSlot cat a slot room =
        (findConsecutiveSlots cat slot.1 slot.2 a.duration).map (fun st =>
          { batchId := a.batchId, day := st.1, timeSlot := st.2,
            subjectId := a.subjectId, facultyId := a.facultyId,
            roomId := room.id,
            roomType := if a.atype == "lab" then "lab" else "classroom",
            isFixed := false }) := by
      simp only [assignSlot]
      rw [if_neg (by simpa using hd1)]
    rw [hbranch]
    refine ⟨by simpa using hlen, ⟨slot.1, tIdx, ?_, ?_⟩, ?_⟩
    · rw [List.length_map, hlen]
      exact hb hdur0
    · intro k hk
      have hk' : k < (findConsecutiveSlots cat slot.1 slot.2 a.duration).length := by
        simpa using hk
      rw [List.getElem_map]
      have := hall k hk'
      rw [this]
      exact ⟨rfl, rfl⟩
    · intro e he
      rcases List.mem_map.mp he with ⟨st, _, hst⟩
      subst hst
      exact ⟨rfl, rfl, rfl⟩

theorem cspRun_ok (cat : Catalog) (sol : List Entry) (hist : List CspHist)
    (h : cspRun cat = .ok (sol, hist)) : smartSolve cat = some sol := by
  simp only [cspRun] at h
  by_cases hb : cat.batches.isEmpty
  · rw [if_pos hb] at h
    exact Except.noConfusion h
  · rw [if_neg hb] at h
    by_cases ha : cat.allocations.isEmpty
    · rw [if_pos ha] at h
      exact Except.noConfusion h
    · rw [if_neg ha] at h
      by_cases hc : cat.classrooms.isEmpty
      · rw [if_pos hc] at h
        exact Except.noConfusion h
      · rw [if_neg hc] at h
        rcases hs : smartSolve cat with _ | s
        · rw [hs] at h
          exact Except.noConfusion h
        · rw [hs] at h
          have := Except.ok.inj h
          rw [(Prod.mk.injEq _ _ _ _).mp this |>.1]

/-- The per-assignment loop of `_smart_solve` only ever appends: the starting
solution is a prefix of any successful result, and the appended part splits
into one block per processed assignment, each block of exactly the
assignment's duration, on one day at consecutive periods, carrying the
assignment's batch, subject and faculty. -/
theorem solveSteps_parts (cat : Catalog) :
    ∀ (pending : List Assignment) (sol0 sol' : List Entry),
      solveSteps cat pending sol0 = some sol' →
      ∃ parts : List (List Entry), sol' = sol0 ++ parts.flatten ∧
        parts.length = pending.length ∧
        ∀ i, ∀ hi : i < parts.length, ∀ hi' : i < pending.length,
          parts[i].length = pending[i].duration ∧
          consecutiveBlock cat parts[i] ∧
          ∀ e ∈ parts[i], e.batchId = pending[i].batchId ∧
            e.subjectId = pending[i].subjectId ∧
            e.facultyId = pending[i].facultyId := by
  intro pending
  induction pending with
  | nil =>
    intro sol0 sol' h
    simp only [solveSteps] at h
    rcases h
    exact ⟨[], by simp, rfl, fun i hi => by simp at hi⟩
  | cons a rest ih =>
    intro sol0 sol' h
    simp only [solveSteps] at h
    by_cases hce : (validCombinations cat a sol0).isEmpty
    · rw [if_pos hce] at h
      exact Option.noConfusion h
    · rw [if_neg hce] at h
      have hne : validCombinations cat a sol0 ≠ [] := by
        simpa [List.isEmpty_iff] using hce
      rcases selectBest_spec cat a sol0 _ hne with ⟨k, hk, hsel, _, _⟩
      rcases hx : (validCombinations cat a sol0)[k] with ⟨slot, room⟩
      rw [hx] at hsel
      rw [hsel] at h
      have h' : solveSteps cat rest (sol0 ++ assignSlot cat a slot room) =
          some sol' := h
      rcases ih _ _ h' with ⟨parts', hsol, hplen, hprops⟩
      have hxmem : ((slot, room) : (String × String) × Room) ∈
          validCombinations cat a sol0 := by
        rw [← hx]
        exact List.getElem_mem hk
      rcases mem_validCombinations cat a sol0 _ hxmem with ⟨hslot, hhard⟩
      rcases assignSlot_block cat a slot room sol0 hhard
          (mem_prepareSlots_time cat _ hslot) with ⟨hblen, hbcons, hbfields⟩
      refine ⟨assignSlot cat a slot room :: parts', ?_, by simp [hplen], ?_⟩
      · rw [hsol, List.flatten_cons, List.append_assoc]
      · intro i hi hi'
        cases i with
        | zero =>
          simpa using ⟨hblen, hbcons, hbfields⟩
        | succ i' =>
          have hi1 : i' < parts'.length := by simpa using hi
          have hi2 : i' < rest.length := by simpa using hi'
          simpa using hprops i' hi1 hi2

theorem prepareAssignments_shape (cat : Catalog) :
    ∀ a ∈ prepareAssignments cat,
      (a.atype = "theory" → a.duration = 1) ∧
      (a.atype = "lab" → ∃ s, subjFind cat a.subjectId = some s ∧
        a.duration = s.labHours ∧ 0 < s.labHours) := by
  intro a ha
  rw [prepareAssignments, mem_isortL] at ha
  rcases List.mem_flatMap.mp ha with ⟨al, _, hmem⟩
  rcases hsf : subjFind cat al.subjectId with _ | subj
  · rw [hsf] at hmem
    simp at hmem
  · rw [hsf] at hmem
    rcases hbf : batchFind cat al.batchId with _ | b
    · rw [hbf] at hmem
      simp at hmem
    · rw [hbf] at hmem
      dsimp only at hmem
      by_cases hft : isFixedTriple cat al
      · rw [if_pos hft] at hmem
        simp at hmem
      · rw [if_neg hft] at hmem
        rcases List.mem_append.mp hmem with hth | hlab
        · rcases List.mem_map.mp hth with ⟨i, _, hai⟩
          subst hai
          refine ⟨fun _ => rfl, fun hl => ?_⟩
          exact absurd hl (by simp)
        · by_cases hlh : subj.labHours > 0
          · rw [if_pos hlh] at hlab
            have := List.mem_singleton.mp hlab
            subst this
            refine ⟨fun ht => absurd ht (by simp), fun _ => ⟨subj, hsf, rfl, hlh⟩⟩
          · rw [if_neg hlh] at hlab
            simp at hlab

/-! ### C2 -/

/-- C2: whenever the CSP run returns a schedule, the schedule is the fixed
slots followed by one block per prepared assignment; each block has exactly
the assignment's duration (1 for a theory requirement, the subject's
`lab_hours` for a lab requirement), lies on one day at consecutive period
indices, and carries the requirement's batch, subject and faculty. -/
theorem cspCompleteness (cat : Catalog) (sol : List Entry)
    (hist : List CspHist) (h : cspRun cat = .ok (sol, hist)) :
    (∃ parts : List (List Entry),
      sol = applyFixedSlots cat ++ parts.flatten ∧
      parts.length = (prepareAssignments cat).length ∧
      ∀ i, ∀ hi : i < parts.length, ∀ hi' : i < (prepareAssignments cat).length,
        parts[i].length = (prepareAssignments cat)[i].duration ∧
        consecutiveBlock cat parts[i] ∧
        ∀ e ∈ parts[i], e.batchId = (prepareAssignments cat)[i].batchId ∧
          e.subjectId = (prepareAssignments cat)[i].subjectId ∧
          e.facultyId = (prepareAssignments cat)[i].facultyId) ∧
    (∀ a ∈ prepareAssignments cat,
      (a.atype = "theory" → a.duration = 1) ∧
      (a.atype = "lab" → ∃ s, subjFind cat a.subjectId = some s ∧
        a.duration = s.labHours ∧ 0 < s.labHours)) := by
  refine ⟨?_, prepareAssignments_shape cat⟩
  have hs : smartSolve cat = some sol := cspRun_ok cat sol hist h
  rw [smartSolve] at hs
  exact solveSteps_parts cat (prepareAssignments cat) (applyFixedSlots cat) sol hs

/-- The schedule and trace `cspRun` returns on `catW1`. -/
def solW1 : List Entry :=
  [{ batchId := 1, day := "Mon", timeSlot := "P1", subjectId := 1,
     facultyId := 1, roomId := 1, roomType := "classroom", isFixed := false }]

/-- The single-record CSP trace. -/
def histW1 : List CspHist :=
  [{ iteration := 0, conflicts := 0,
     method := "Enhanced CSP with Soft Subject Distribution" }]

/-- Witness for C2 on a concrete successful run. -/
theorem cspCompleteness_witness :
    cspRun catW1 = .ok (solW1, histW1) ∧
    ((∃ parts : List (List Entry),
      solW1 = applyFixedSlots catW1 ++ parts.flatten ∧
      parts.length = (prepareAssignments catW1).length ∧
      ∀ i, ∀ hi : i < parts.length,
        ∀ hi' : i < (prepareAssignments catW1).length,
        parts[i].length = (prepareAssignments catW1)[i].duration ∧
        consecutiveBlock catW1 parts[i] ∧
        ∀ e ∈ parts[i], e.batchId = (prepareAssignments catW1)[i].batchId ∧
          e.subjectId = (prepareAssignments catW1)[i].subjectId ∧
          e.facultyId = (prepareAssignments catW1)[i].facultyId) ∧
    (∀ a ∈ prepareAssignments catW1,
      (a.atype = "theory" → a.duration = 1) ∧
      (a.atype = "lab" → ∃ s, subjFind catW1 a.subjectId = some s ∧
        a.duration = s.labHours ∧ 0 < s.labHours))) :=
  ⟨by decide, cspCompleteness catW1 solW1 histW1 (by decide)⟩

/-! ### Witness data shared by C1 and C9 -/

/-- The fixed slot of `catWF`. -/
def fsW : FixedSlot :=
  { batchId := 1, day := "Mon", timeSlot := "P1", subjectId := 1,
    facultyId := 1, roomId := 1, roomType := "classroom" }

/-- GA parameters used by concrete witnesses. -/
def psW : GaParams :=
  { populationSize := 4, maxGenerations := 3, crossoverRate := 1, mutationRate := 1,
    eliteSize := 1, tournamentSize := 2 }

/-! ### C9 -/

/-- C9: crossover/mutation closure.  For parents with identical fixed genes
and equally many non-fixed genes, both children carry exactly the parents'
fixed genes and exactly as many non-fixed genes; mutation preserves the
timetable length, keeps every gene's subject, faculty, room, room type and
fixed flag at its position, only permutes the `(day, time_slot)` pairs
(swapping them between two gene positions per firing attempt), and leaves
every fixed gene entirely untouched. -/
theorem crossoverMutationClosure (o : Oracle) (p : Nat)
    (par1 par2 : List Entry) (ps : GaParams) (tt : List Entry)
    (hfix : par1.filter (fun s => s.isFixed) = par2.filter (fun s => s.isFixed))
    (hnf : (par1.filter (fun s => !s.isFixed)).length =
      (par2.filter (fun s => !s.isFixed)).length) :
    ((crossoverGA o p par1 par2).1.1.filter (fun s => s.isFixed) =
        par1.filter (fun s => s.isFixed) ∧
      (crossoverGA o p par1 par2).1.2.filter (fun s => s.isFixed) =
        par1.filter (fun s => s.isFixed) ∧
      ((crossoverGA o p par1 par2).1.1.filter (fun s => !s.isFixed)).length =
        (par1.filter (fun s => !s.isFixed)).length ∧
      ((crossoverGA o p par1 par2).1.2.filter (fun s => !s.isFixed)).length =
        (par1.filter (fun s => !s.isFixed)).length) ∧
    ((mutateGA ps o p tt).1.length = tt.length ∧
      (∀ k, ∀ hk : k < tt.length, ∀ hk' : k < (mutateGA ps o p tt).1.length,
        (mutateGA ps o p tt).1[k].subjectId = tt[k].subjectId ∧
        (mutateGA ps o p tt).1[k].facultyId = tt[k].facultyId ∧
        (mutateGA ps o p tt).1[k].roomId = tt[k].roomId ∧
        (mutateGA ps o p tt).1[k].roomType = tt[k].roomType ∧
        (mutateGA ps o p tt).1[k].isFixed = tt[k].isFixed) ∧
      ((mutateGA ps o p tt).1.map (fun e => (e.day, e.timeSlot))).Perm
        (tt.map (fun e => (e.day, e.timeSlot))) ∧
      (∀ k, ∀ hk : k < tt.length, tt[k].isFixed = true →
        (mutateGA ps o p tt).1[k]? = tt[k]?)) := by
  refine ⟨crossoverGA_filter o p par1 par2 hfix hnf, ?_⟩
  rcases mutateGA_spec ps o p tt with ⟨hlen, hfields, hperm, huntouched⟩
  refine ⟨hlen, ?_, hperm, huntouched⟩
  intro k hk hk'
  rcases hfields k hk hk' with ⟨_, f2, f3, f4, f5, f6⟩
  exact ⟨f2, f3, f4, f5, f6⟩

/-- Witness for C9 on concrete parents with one fixed and one non-fixed gene
each. -/
theorem crossoverMutationClosure_witness :
    (([Entry.ofFixed fsW, default] : List Entry).filter (fun s => s.isFixed) =
       ([Entry.ofFixed fsW, default] : List Entry).filter (fun s => s.isFixed) ∧
     (([Entry.ofFixed fsW, default] : List Entry).filter
         (fun s => !s.isFixed)).length =
       (([Entry.ofFixed fsW, default] : List Entry).filter
         (fun s => !s.isFixed)).length) ∧
    ((crossoverGA (fun _ => 0) 0 [Entry.ofFixed fsW, default]
        [Entry.ofFixed fsW, default]).1.1.filter (fun s => s.isFixed) =
      ([Entry.ofFixed fsW, default] : List Entry).filter (fun s => s.isFixed)) := by
  refine ⟨⟨rfl, rfl⟩, ?_⟩
  exact (crossoverMutationClosure (fun _ => 0) 0 [Entry.ofFixed fsW, default]
    [Entry.ofFixed fsW, default] psW [] rfl rfl).1.1

/-! ### Nonnegativity of the GA penalty and C8 -/

theorem conflictPenalty_nonneg (key : Entry → Nat) (w : ℚ) (hw : 0 ≤ w)
    (tt : List Entry) : 0 ≤ conflictPenalty key w tt := by
  apply List.sum_nonneg
  intro x hx
  rcases List.mem_map.mp hx with ⟨g, _, hgx⟩
  subst hgx
  apply List.sum_nonneg
  intro y hy
  rcases List.mem_map.mp hy with ⟨kc, _, hky⟩
  subst hky
  by_cases h1 : 1 < kc.2
  · rw [if_pos h1]
    apply mul_nonneg hw
    have : (1 : ℚ) ≤ (kc.2 : ℚ) := by exact_mod_cast Nat.one_le_iff_ne_zero.mpr (by omega)
    linarith
  · rw [if_neg h1]

theorem gapPenalty_nonneg (cat : Catalog) (key : Entry → Nat) (w : ℚ)
    (hw : 0 ≤ w) (tt : List Entry) : 0 ≤ gapPenalty cat key w tt := by
  apply List.sum_nonneg
  intro x hx
  rcases List.mem_map.mp hx with ⟨g, _, hgx⟩
  subst hgx
  by_cases h1 : 1 < g.2.length
  · rw [if_pos h1]
    apply List.sum_nonneg
    intro y hy
    rcases List.mem_map.mp hy with ⟨xy, _, hxy⟩
    subst hxy
    by_cases hgap : (0 : Int) < ((timeIdx cat xy.2.timeSlot).getD 0 : Int) -
        ((timeIdx cat xy.1.timeSlot).getD 0 : Int) - 1
    · rw [if_pos hgap]
      apply mul_nonneg (mul_nonneg hw ?_) (by norm_num)
      exact_mod_cast le_of_lt hgap
    · rw [if_neg hgap]
  · rw [if_neg h1]

theorem balancePenalty_nonneg (cat : Catalog) (w : ℚ) (hw : 0 ≤ w)
    (tt : List Entry) : 0 ≤ balancePenalty cat w tt := by
  apply List.sum_nonneg
  intro x hx
  rcases List.mem_map.mp hx with ⟨fid, _, hfx⟩
  subst hfx
  by_cases hc : (!(cat.workingDays.map (fun d => facultyDailyLoad tt fid d)).isEmpty &&
      decide (0 < (cat.workingDays.map (fun d => facultyDailyLoad tt fid d)).foldl max 0))
  · rw [if_pos hc]
    apply mul_nonneg (mul_nonneg hw ?_) (by norm_num)
    apply div_nonneg
    · apply List.sum_nonneg
      intro y hy
      rcases List.mem_map.mp hy with ⟨n, _, hny⟩
      subst hny
      positivity
    · positivity
  · rw [if_neg hc]

theorem gaFind_weight_nonneg (cat : Catalog)
    (hw : ∀ c ∈ cat.constraints, c.enabled = true → 0 ≤ c.weight)
    (name : String) (c : ConstraintRow) (h : gaFind cat name = some c) :
    0 ≤ c.weight := by
  have hmem : c ∈ gaConstraints cat := List.mem_of_find?_eq_some h
  have := List.mem_filter.mp hmem
  exact hw c this.1 this.2

theorem gaPenalty_nonneg (cat : Catalog) (tt : List Entry)
    (hw : ∀ c ∈ cat.constraints, c.enabled = true → 0 ≤ c.weight) :
    0 ≤ gaPenalty cat tt := by
  rw [gaPenalty]
  have h1 : 0 ≤ (match gaFind cat "no_faculty_conflict" with
      | some c => conflictPenalty (fun e => e.facultyId) c.weight tt
      | none => 0) := by
    rcases hf : gaFind cat "no_faculty_conflict" with _ | c
    · exact le_refl _
    · exact conflictPenalty_nonneg _ _ (gaFind_weight_nonneg cat hw _ c hf) tt
  have h2 : 0 ≤ (match gaFind cat "no_batch_conflict" with
      | some c => conflictPenalty (fun e => e.batchId) c.weight tt
      | none => 0) := by
    rcases hf : gaFind cat "no_batch_conflict" with _ | c
    · exact le_refl _
    · exact conflictPenalty_nonneg _ _ (gaFind_weight_nonneg cat hw _ c hf) tt
  have h3 : 0 ≤ (match gaFind cat "no_room_conflict" with
      | some c => conflictPenalty (fun e => e.roomId) c.weight tt
      | none => 0) := by
    rcases hf : gaFind cat "no_room_conflict" with _ | c
    · exact le_refl _
    · exact conflictPenalty_nonneg _ _ (gaFind_weight_nonneg cat hw _ c hf) tt
  have h4 : 0 ≤ (match gaFind cat "minimize_faculty_gaps" with
      | some c => gapPenalty cat (fun e => e.facultyId) c.weight tt
      | none => 0) := by
    rcases hf : gaFind cat "minimize_faculty_gaps" with _ | c
    · exact le_refl _
    · exact gapPenalty_nonneg cat _ _ (gaFind_weight_nonneg cat hw _ c hf) tt
  have h5 : 0 ≤ (match gaFind cat "minimize_batch_gaps" with
      | some c => gapPenalty cat (fun e => e.batchId) c.weight tt
      | none => 0) := by
    rcases hf : gaFind cat "minimize_batch_gaps" with _ | c
    · exact le_refl _
    · exact gapPenalty_nonneg cat _ _ (gaFind_weight_nonneg cat hw _ c hf) tt
  have h6 : 0 ≤ (match gaFind cat "balanced_faculty_load" with
      | some c => balancePenalty cat c.weight tt
      | none => 0) := by
    rcases hf : gaFind cat "balanced_faculty_load" with _ | c
    · exact le_refl _
    · exact balancePenalty_nonneg cat _ (gaFind_weight_nonneg cat hw _ c hf) tt
  linarith

theorem calculateFitness_pos (cat : Catalog) (tt : List Entry)
    (hw : ∀ c ∈ cat.constraints, c.enabled = true → 0 ≤ c.weight) :
    0 < calculateFitness cat tt := by
  rw [calculateFitness]
  have h := gaPenalty_nonneg cat tt hw
  positivity

/-! ### C8 -/

/-- C8: with every enabled-constraint weight nonnegative, the fitness
`1000 / (1 + penalty)` is strictly positive, at most 1000, and equals exactly
1000 if and only if the accumulated penalty is zero. -/
theorem fitnessBounds (cat : Catalog) (tt : List Entry)
    (hw : ∀ c ∈ cat.constraints, c.enabled = true → 0 ≤ c.weight) :
    0 < calculateFitness cat tt ∧ calculateFitness cat tt ≤ 1000 ∧
    (calculateFitness cat tt = 1000 ↔ gaPenalty cat tt = 0) := by
  have hp := gaPenalty_nonneg cat tt hw
  have hd : (0 : ℚ) < 1 + gaPenalty cat tt := by linarith
  refine ⟨calculateFitness_pos cat tt hw, ?_, ?_⟩
  · rw [calculateFitness, div_le_iff hd]
    nlinarith
  · rw [calculateFitness, div_eq_iff (ne_of_gt hd)]
    constructor
    · intro h
      nlinarith
    · intro h
      rw [h]
      norm_num

/-- Witness for C8 at a concrete configuration (weights 10, 10 ≥ 0). -/
theorem fitnessBounds_witness :
    (∀ c ∈ catC5a.constraints, c.enabled = true → 0 ≤ c.weight) ∧
    (0 < calculateFitness catC5a solW1 ∧ calculateFitness catC5a solW1 ≤ 1000 ∧
      (calculateFitness catC5a solW1 = 1000 ↔ gaPenalty catC5a solW1 = 0)) :=
  ⟨by decide, fitnessBounds catC5a solW1 (by decide)⟩

/-! ### C10 -/

/-- A catalog with one practical subject whose weekly lab block is 2 periods,
over a 2-day × 2-period calendar, with every GA constraint enabled. -/
def cat10 : Catalog :=
  { workingDays := ["Mon", "Tue"], timeSlots := ["P1", "P2"],
    batches := [{ id := 1, numberOfStudents := 30 }],
    subjects := [{ id := 1, subjectType := "practical", credits := 3,
                   theoryHours := 0, labHours := 2 }],
    allocations := [{ batchId := 1, subjectId := 1, facultyId := 1 }],
    classrooms := [{ id := 1, capacity := some 60, computerCapacity := none }],
    labs := [{ id := 2, capacity := none, computerCapacity := some 40 }],
    fixedSlots := [],
    constraints := [
      { name := "no_faculty_conflict", ctype := "hard", enabled := true, weight := 10 },
      { name := "no_batch_conflict", ctype := "hard", enabled := true, weight := 10 },
      { name := "no_room_conflict", ctype := "hard", enabled := true, weight := 10 },
      { name := "minimize_faculty_gaps", ctype := "soft", enabled := true, weight := 2 },
      { name := "minimize_batch_gaps", ctype := "soft", enabled := true, weight := 2 },
      { name := "balanced_faculty_load", ctype := "soft", enabled := true, weight := 3 }] }

/-- The two genes of the lab requirement of `cat10`, placed on different days
(a torn lab block). -/
def tt10 : List Entry :=
  [{ batchId := 1, day := "Mon", timeSlot := "P1", subjectId := 1, facultyId := 1,
     roomId := 2, roomType := "lab", isFixed := false },
   { batchId := 1, day := "Tue", timeSlot := "P1", subjectId := 1, facultyId := 1,
     roomId := 2, roomType := "lab", isFixed := false }]

theorem pen10 : gaPenalty cat10 tt10 = 0 := by
  simp +decide [gaPenalty, gaFind, gaConstraints, conflictPenalty, gapPenalty,
    balancePenalty, groupByKey, keyCounts, distinctFaculty, facultyDailyLoad,
    cat10, tt10, List.find?, timeIdx, isortL, insertL]

theorem fit10 : calculateFitness cat10 tt10 = 1000 := by
  rw [calculateFitness, pen10]
  norm_num

/-- A timetable with a contiguous 2-period lab block (positions 0 and 1) and
one theory gene (position 2). -/
def ttM : List Entry :=
  [{ batchId := 1, day := "Mon", timeSlot := "P1", subjectId := 1, facultyId := 1,
     roomId := 2, roomType := "lab", isFixed := false },
   { batchId := 1, day := "Mon", timeSlot := "P2", subjectId := 1, facultyId := 1,
     roomId := 2, roomType := "lab", isFixed := false },
   { batchId := 1, day := "Tue", timeSlot := "P2", subjectId := 2, facultyId := 2,
     roomId := 1, roomType := "classroom", isFixed := false }]

/-- An oracle firing one mutation attempt that samples gene positions 0 and 2. -/
def oM : Oracle := fun n => if n = 2 then 1 else 0

/-- GA parameters with mutation rate 0 (one swap attempt per `_mutate` call). -/
def psM10 : GaParams :=
  { populationSize := 4, maxGenerations := 3, crossoverRate := 0,
    mutationRate := 0, eliteSize := 1, tournamentSize := 2 }

/-- `ttM` after the mutation drawn by `oM`: the first period of the lab block
moved to another day while the block's second period stayed. -/
def ttMAfter : List Entry :=
  [{ batchId := 1, day := "Tue", timeSlot := "P2", subjectId := 1, facultyId := 1,
     roomId := 2, roomType := "lab", isFixed := false },
   { batchId := 1, day := "Mon", timeSlot := "P2", subjectId := 1, facultyId := 1,
     roomId := 2, roomType := "lab", isFixed := false },
   { batchId := 1, day := "Mon", timeSlot := "P1", subjectId := 2, facultyId := 2,
     roomId := 1, roomType := "classroom", isFixed := false }]

theorem mut10 : (mutateGA psM10 oM 0 ttM).1 = ttMAfter := by
  have hflr : (Rat.floor (((3 : Nat) : ℚ) * psM10.mutationRate)).toNat + 1 = 1 := by
    norm_num [psM10, Rat.floor]
  have hstep : mutateGA psM10 oM 0 ttM = mutLoop oM [0, 1, 2] 1 ttM 0 := by
    simp only [mutateGA]
    rw [show ((List.range ttM.length).filter
      (fun i => !(ttM.getD i default).isFixed)) = [0, 1, 2] from by decide]
    rw [if_neg (by decide)]
    rw [show (([0, 1, 2] : List Nat).length : ℚ) = ((3 : Nat) : ℚ) from by norm_num]
    rw [hflr]
  rw [hstep]
  decide

/-- C10: the GA fitness function is blind to lab-block contiguity — the two
genes of `cat10`'s practical subject lie on different days, every GA
constraint is enabled, yet the fitness is exactly 1000 (zero penalty); and
mutation relocates a single period of a contiguous lab block independently of
the block's other period, so a GA schedule need not keep a lab requirement's
periods consecutive on one day. -/
theorem fitnessLabContiguityBlindness :
    ((tt10.getD 0 default).subjectId = (tt10.getD 1 default).subjectId ∧
     subjFind cat10 (tt10.getD 0 default).subjectId =
       some { id := 1, subjectType := "practical", credits := 3,
              theoryHours := 0, labHours := 2 } ∧
     (tt10.getD 0 default).day ≠ (tt10.getD 1 default).day ∧
     (∀ c ∈ cat10.constraints, c.enabled = true) ∧
     calculateFitness cat10 tt10 = 1000) ∧
    ((mutateGA psM10 oM 0 ttM).1 = ttMAfter ∧
     (ttM.getD 0 default).roomType = "lab" ∧
     (ttM.getD 1 default).roomType = "lab" ∧
     (ttM.getD 0 default).subjectId = (ttM.getD 1 default).subjectId ∧
     (ttM.getD 0 default).day = (ttM.getD 1 default).day ∧
     (ttMAfter.getD 0 default).day ≠ (ttMAfter.getD 1 default).day ∧
     ttMAfter.getD 1 default = ttM.getD 1 default) :=
  ⟨⟨by decide, by decide, by decide, by decide, fit10⟩,
   ⟨mut10, by decide, by decide, by decide, by decide, by decide, by decide⟩⟩

/-! ### Totality of the GA run under valid parameters -/

theorem pick_ok {α : Type} (l : List α) (hl : l ≠ []) (o : Oracle) (p : Nat) :
    ∃ x, pick l o p = .ok (x, p + 1) := by
  cases l with
  | nil => exact absurd rfl hl
  | cons x xs => exact ⟨_, rfl⟩

theorem crtLoop_ok (cat : Catalog) (o : Oracle) (hd : cat.workingDays ≠ [])
    (ht : cat.timeSlots ≠ []) (hc : cat.classrooms ≠ []) :
    ∀ (reqs : List Req) (acc : List Entry) (p : Nat),
      ∃ tt p', crtLoop cat o reqs acc p = .ok (tt, p') := by
  intro reqs
  induction reqs with
  | nil => intro acc p; exact ⟨acc, p, rfl⟩
  | cons req rest ih =>
    intro acc p
    by_cases hth : req.rtype == "theory"
    · rcases pick_ok cat.workingDays hd o p with ⟨day, hday⟩
      rcases pick_ok cat.timeSlots ht o (p + 1) with ⟨t, htp⟩
      rcases pick_ok cat.classrooms hc o (p + 2) with ⟨room, hroom⟩
      simp only [crtLoop, hth, if_true, hday, htp, hroom, bind, Except.bind]
      exact ih _ _
    · simp only [Bool.not_eq_true] at hth
      by_cases hpr : req.rtype == "practical"
      · rcases pick_ok cat.workingDays hd o p with ⟨day, hday⟩
        by_cases hl : cat.labs.isEmpty
        · rcases pick_ok cat.classrooms hc o (p + 2) with ⟨room, hroom⟩
          simp only [crtLoop, hth, Bool.false_eq_true, if_false, hpr, if_true,
            hday, hl, if_pos, hroom, bind, Except.bind, Except.map]
          exact ih _ _
        · have hl' : cat.labs.isEmpty = false := by
            simpa using hl
          have hlne : cat.labs ≠ [] := by
            simpa [List.isEmpty_iff] using hl
          rcases pick_ok cat.labs hlne o (p + 2) with ⟨lab, hlab⟩
          simp only [crtLoop, hth, Bool.false_eq_true, if_false, hpr, if_true,
            hday, hl', hlab, bind, Except.bind, Except.map]
          exact ih _ _
      · simp only [Bool.not_eq_true] at hpr
        simp only [crtLoop, hth, Bool.false_eq_true, if_false, hpr]
        exact ih _ _

theorem initPop_ok (cat : Catalog) (o : Oracle) (hd : cat.workingDays ≠ [])
    (ht : cat.timeSlots ≠ []) (hc : cat.classrooms ≠ []) :
    ∀ (n p : Nat), ∃ pop p', initPop cat o n p = .ok (pop, p') ∧ pop.length = n := by
  intro n
  induction n with
  | zero => intro p; exact ⟨[], p, rfl, rfl⟩
  | succ n ih =>
    intro p
    rcases crtLoop_ok cat o hd ht hc (slotRequirements cat) (applyFixedSlots cat) p
      with ⟨tt, p1, hcrt⟩
    rcases ih p1 with ⟨pop, p2, hpop, hlen⟩
    refine ⟨tt :: pop, p2, ?_, by simp [hlen]⟩
    simp only [initPop, createRandomTimetable, hcrt, hpop, bind, Except.bind]

theorem foldl_max_mem : ∀ (xs : List ℚ) (x : ℚ), xs.foldl max x = x ∨ xs.foldl max x ∈ xs := by
  intro xs
  induction xs with
  | nil => intro x; exact Or.inl rfl
  | cons y ys ih =>
    intro x
    simp only [List.foldl_cons]
    rcases ih (max x y) with h | h
    · rcases max_choice x y with hm | hm
      · exact Or.inl (by rw [h, hm])
      · refine Or.inr ?_
        rw [h, hm]
        exact List.mem_cons_self y ys
    · exact Or.inr (List.mem_cons_of_mem y h)

theorem maxQ_mem (l : List ℚ) (hl : l ≠ []) :
    ∃ m, maxQ l = some m ∧ m ∈ l := by
  cases l with
  | nil => exact absurd rfl hl
  | cons x xs =>
    refine ⟨xs.foldl max x, rfl, ?_⟩
    rcases foldl_max_mem xs x with h | h
    · rw [h]; exact List.mem_cons_self _ _
    · exact List.mem_cons_of_mem x h

theorem sampleK_ok (o : Oracle) :
    ∀ (k : Nat) (avail : List Nat) (p : Nat), k ≤ avail.length →
      ∃ ids p', sampleK o avail k p = .ok (ids, p') ∧ ids.length = k := by
  intro k
  induction k with
  | zero =>
    intro avail p _
    cases avail <;> exact ⟨[], p, rfl, rfl⟩
  | succ k ih =>
    intro avail p hk
    cases avail with
    | nil => simp at hk
    | cons x xs =>
      have hidx : rnat o p (xs.length + 1) < (x :: xs).length := by
        simpa using Nat.mod_lt _ (Nat.succ_pos xs.length)
      have hlen : ((x :: xs).eraseIdx (rnat o p (xs.length + 1))).length = xs.length := by
        rw [List.length_eraseIdx, if_pos hidx]
        simp
      rcases ih ((x :: xs).eraseIdx (rnat o p (xs.length + 1))) (p + 1)
        (by rw [hlen]; simp only [List.length_cons] at hk; omega)
        with ⟨ids, p', hrec, hidslen⟩
      refine ⟨(x :: xs).getD (rnat o p (xs.length + 1)) 0 :: ids, p', ?_, by simp [hidslen]⟩
      simp only [sampleK, hrec, Except.map]

theorem tournamentSelection_ok (ps : GaParams) (pop : List (List Entry))
    (fits : List ℚ) (o : Oracle) (p : Nat) (hk1 : 1 ≤ ps.tournamentSize)
    (hkP : ps.tournamentSize ≤ pop.length) :
    ∃ tt p', tournamentSelection ps pop fits o p = .ok (tt, p') := by
  rcases sampleK_ok o ps.tournamentSize (List.range pop.length) p
    (by simpa using hkP) with ⟨ids, p1, hsample, hidslen⟩
  have hids : ids ≠ [] := by
    intro h
    rw [h] at hidslen
    simp at hidslen
    omega
  have htf : ids.map (fun i => fits.getD i 0) ≠ [] := by
    simpa using hids
  rcases maxQ_mem _ htf with ⟨m, hmax, _⟩
  refine ⟨pop.getD (ids.getD ((List.findIdx? (fun x => x == m)
    (List.map (fun i => fits.getD i 0) ids)).getD 0) 0) [], p1, ?_⟩
  simp only [tournamentSelection, hsample, bind, Except.bind, hmax]

theorem buildPairs_ok (ps : GaParams) (pop : List (List Entry)) (fits : List ℚ)
    (o : Oracle) (hk1 : 1 ≤ ps.tournamentSize)
    (hkP : ps.tournamentSize ≤ pop.length) :
    ∀ (m curLen : Nat) (acc : List (List Entry × List Entry)) (p : Nat),
      ps.populationSize - (curLen + acc.length * 2) ≤ m →
      ∃ pairs p', buildPairs ps pop fits o curLen acc p = .ok (pairs, p') ∧
        ps.populationSize ≤ curLen + pairs.length * 2 := by
  intro m
  induction m with
  | zero =>
    intro curLen acc p hm
    have hcond : ¬ (curLen + acc.length * 2 < ps.populationSize) := by omega
    refine ⟨acc, p, ?_, by omega⟩
    rw [buildPairs, if_neg hcond]
  | succ m ih =>
    intro curLen acc p hm
    by_cases hcond : curLen + acc.length * 2 < ps.populationSize
    · rcases tournamentSelection_ok ps pop fits o p hk1 hkP with ⟨pa, p1, hta⟩
      rcases tournamentSelection_ok ps pop fits o p1 hk1 hkP with ⟨pb, p2, htb⟩
      rcases ih curLen (acc ++ [(pa, pb)]) p2
        (by simp only [List.length_append, List.length_cons, List.length_nil]; omega)
        with ⟨pairs, p', hrec, hge⟩
      refine ⟨pairs, p', ?_, hge⟩
      rw [buildPairs, if_pos hcond]
      simp only [hta, htb, bind, Except.bind]
      exact hrec
    · refine ⟨acc, p, ?_, by omega⟩
      rw [buildPairs, if_neg hcond]

theorem crossMutLoop_len (ps : GaParams) (o : Oracle) (total : Nat) :
    ∀ (pairs : List (List Entry × List Entry)) (children : List (List Entry))
      (p : Nat), children.length + 2 * pairs.length ≤ total →
      (crossMutLoop ps o total pairs children p).1.length =
        children.length + 2 * pairs.length := by
  intro pairs
  induction pairs with
  | nil =>
    intro children p _
    simp [crossMutLoop]
  | cons pr rest ih =>
    intro children p hle
    simp only [crossMutLoop]
    rcases hcr : crossoverGA o p pr.1 pr.2 with ⟨⟨c1, c2⟩, p1⟩
    rcases hm1 : mutateGA ps o p1 c1 with ⟨m1, p2⟩
    have hcondtrue : (children ++ [m1]).length < total := by
      simp only [List.length_append, List.length_cons, List.length_nil,
        List.length_cons] at *
      omega
    rw [if_pos hcondtrue]
    rcases hm2 : mutateGA ps o p2 c2 with ⟨m2, p3⟩
    have := ih ((children ++ [m1]) ++ [m2]) p3 (by
      simp only [List.length_append, List.length_cons, List.length_nil] at *
      omega)
    rw [this]
    simp only [List.length_append, List.length_cons, List.length_nil]
    omega

/-- The generational loop never fails and, once at least one generation runs,
returns a best individual and a non-trivial history. -/
theorem gaLoop_ok (cat : Catalog) (ps : GaParams) (o : Oracle)
    (hw : ∀ c ∈ cat.constraints, c.enabled = true → 0 ≤ c.weight)
    (hP : 1 ≤ ps.populationSize) (hk1 : 1 ≤ ps.tournamentSize)
    (hkP : ps.tournamentSize ≤ ps.populationSize) :
    ∀ (gensLeft gen : Nat) (pop : List (List Entry)) (hist : List GenRec)
      (bestFit : ℚ) (bestTT : Option (List Entry)) (p : Nat),
      pop.length = ps.populationSize →
      (bestTT = none → bestFit = 0) →
      ∃ btt hist' p',
        gaLoop cat ps o gensLeft gen pop hist bestFit bestTT p =
          .ok (btt, hist', p') ∧
        hist.length ≤ hist'.length ∧
        (bestTT.isSome = true → btt.isSome = true) ∧
        (1 ≤ gensLeft → btt.isSome = true ∧ hist.length < hist'.length) := by
  intro gensLeft
  induction gensLeft with
  | zero =>
    intro gen pop hist bestFit bestTT p hlen hbase
    exact ⟨bestTT, hist, p, rfl, le_refl _, fun h => h,
      fun h => absurd h (by omega)⟩
  | succ gl ih =>
    intro gen pop hist bestFit bestTT p hlen hbase
    have hpopne : pop ≠ [] := by
      intro h
      rw [h] at hlen
      simp at hlen
      omega
    have hfitsne : pop.map (calculateFitness cat) ≠ [] := by simpa using hpopne
    rcases maxQ_mem _ hfitsne with ⟨bf, hmax, hbfmem⟩
    rcases List.mem_map.mp hbfmem with ⟨tt, _, hbfeq⟩
    have hbfpos : 0 < bf := by
      rw [← hbfeq]
      exact calculateFitness_pos cat tt hw
    simp only [gaLoop, hmax]
    by_cases hupd : bestFit < bf
    · rw [if_pos hupd]
      by_cases hstop : (999 : ℚ) ≤ bf
      · rw [if_pos hstop]
        exact ⟨_, _, _, rfl, by simp, fun _ => rfl, fun _ => ⟨rfl, by simp⟩⟩
      · rw [if_neg hstop]
        rcases buildPairs_ok ps pop (pop.map (calculateFitness cat)) o hk1
            (by rw [hlen]; exact hkP) ps.populationSize
            ((((eliteIndices (pop.map (calculateFitness cat))).take
              ps.eliteSize).map (fun i => pop.getD i [])).length) [] p
            (by omega) with ⟨pairs, p1, hbp, hge⟩
        simp only [hbp, bind, Except.bind]
        rcases hcm : crossMutList ps o pairs p1 with ⟨children, p2⟩
        have hchlen : children.length = 2 * pairs.length := by
          have := crossMutLoop_len ps o (pairs.length * 2) pairs [] p1
            (by simp only [List.length_nil]; omega)
          rw [crossMutList] at hcm
          rw [hcm] at this
          simpa using this
        have hn0 : (((eliteIndices (pop.map (calculateFitness cat))).take
            ps.eliteSize).map (fun i => pop.getD i [])).length =
            min ps.eliteSize ps.populationSize := by
          simp [eliteIndices, length_isortL, hlen]
        have hnewlen : ((((eliteIndices (pop.map (calculateFitness cat))).take
            ps.eliteSize).map (fun i => pop.getD i [])) ++
            children.take (ps.populationSize -
              (((eliteIndices (pop.map (calculateFitness cat))).take
                ps.eliteSize).map (fun i => pop.getD i [])).length)).length =
            ps.populationSize := by
          simp only [List.length_append, List.length_take, hn0, hchlen]
          rw [hn0] at hge
          omega
        rcases ih (gen + 1) _ _ bf (some (pop.getD ((List.findIdx?
            (fun x => x == bf) (pop.map (calculateFitness cat))).getD 0) []))
            p2 hnewlen (by simp) with ⟨btt, hist'', p'', heq, hmono, hsome, _⟩
        refine ⟨btt, hist'', p'', heq, ?_, ?_, ?_⟩
        · simp only [List.length_append, List.length_cons, List.length_nil] at hmono ⊢
          omega
        · intro _
          exact hsome rfl
        · intro _
          refine ⟨hsome rfl, ?_⟩
          simp only [List.length_append, List.length_cons, List.length_nil] at hmono ⊢
          omega
    · have hbtt : bestTT.isSome = true := by
        rcases hb : bestTT with _ | t
        · have h0 : bestFit = 0 := hbase hb
          rw [h0] at hupd
          exact absurd hbfpos hupd
        · simp [hb]
      rw [if_neg hupd]
      by_cases hstop : (999 : ℚ) ≤ bf
      · rw [if_pos hstop]
        exact ⟨bestTT, _, p, rfl, by simp, fun h => h, fun _ => ⟨hbtt, by simp⟩⟩
      · rw [if_neg hstop]
        rcases buildPairs_ok ps pop (pop.map (calculateFitness cat)) o hk1
            (by rw [hlen]; exact hkP) ps.populationSize
            ((((eliteIndices (pop.map (calculateFitness cat))).take
              ps.eliteSize).map (fun i => pop.getD i [])).length) [] p
            (by omega) with ⟨pairs, p1, hbp, hge⟩
        simp only [hbp, bind, Except.bind]
        rcases hcm : crossMutList ps o pairs p1 with ⟨children, p2⟩
        have hchlen : children.length = 2 * pairs.length := by
          have := crossMutLoop_len ps o (pairs.length * 2) pairs [] p1
            (by simp only [List.length_nil]; omega)
          rw [crossMutList] at hcm
          rw [hcm] at this
          simpa using this
        have hn0 : (((eliteIndices (pop.map (calculateFitness cat))).take
            ps.eliteSize).map (fun i => pop.getD i [])).length =
            min ps.eliteSize ps.populationSize := by
          simp [eliteIndices, length_isortL, hlen]
        have hnewlen : ((((eliteIndices (pop.map (calculateFitness cat))).take
            ps.eliteSize).map (fun i => pop.getD i [])) ++
            children.take (ps.populationSize -
              (((eliteIndices (pop.map (calculateFitness cat))).take
                ps.eliteSize).map (fun i => pop.getD i [])).length)).length =
            ps.populationSize := by
          simp only [List.length_append, List.length_take, hn0, hchlen]
          rw [hn0] at hge
          omega
        rcases ih (gen + 1) _ _ bestFit bestTT p2 hnewlen
            (fun h => absurd (h ▸ hbtt) (by simp)) with
          ⟨btt, hist'', p'', heq, hmono, hsome, _⟩
        refine ⟨btt, hist'', p'', heq, ?_, ?_, ?_⟩
        · simp only [List.length_append, List.length_cons, List.length_nil] at hmono ⊢
          omega
        · intro _
          exact hsome hbtt
        · intro _
          refine ⟨hsome hbtt, ?_⟩
          simp only [List.length_append, List.length_cons, List.length_nil] at hmono ⊢
          omega

theorem gaLoadData_ok_parts (cat : Catalog) (h : gaLoadData cat = .ok ()) :
    cat.batches ≠ [] ∧ cat.allocations ≠ [] ∧ cat.classrooms ≠ [] := by
  simp only [gaLoadData] at h
  by_cases hb : cat.batches.isEmpty
  · rw [if_pos hb] at h
    exact Except.noConfusion h
  · rw [if_neg hb] at h
    by_cases ha : cat.allocations.isEmpty
    · rw [if_pos ha] at h
      exact Except.noConfusion h
    · rw [if_neg ha] at h
      by_cases hc : cat.classrooms.isEmpty
      · rw [if_pos hc] at h
        exact Except.noConfusion h
      · refine ⟨?_, ?_, ?_⟩ <;>
          simp_all [List.isEmpty_iff]

/-! ### Run-level fixed-slot preservation, and C1 -/

theorem maxQ_mem_of_eq (l : List ℚ) (m : ℚ) (h : maxQ l = some m) : m ∈ l := by
  cases l with
  | nil => simp [maxQ] at h
  | cons x xs =>
    simp only [maxQ, Option.some.injEq] at h
    rcases foldl_max_mem xs x with h2 | h2
    · rw [← h, h2]
      exact List.mem_cons_self _ _
    · rw [← h]
      exact List.mem_cons_of_mem x h2

/-- Every index drawn by `random.sample` comes from the sampled population. -/
theorem sampleK_sub (o : Oracle) :
    ∀ (k : Nat) (avail : List Nat) (p : Nat) (ids : List Nat) (p' : Nat),
      sampleK o avail k p = .ok (ids, p') → ∀ i ∈ ids, i ∈ avail := by
  intro k
  induction k with
  | zero =>
    intro avail p ids p' h i hi
    cases avail <;>
      · simp only [sampleK, Except.ok.injEq, Prod.mk.injEq] at h
        rcases h with ⟨h1, _⟩
        rw [← h1] at hi
        simp at hi
  | succ k ih =>
    intro avail p ids p' h i hi
    cases avail with
    | nil => simp [sampleK] at h
    | cons x xs =>
      simp only [sampleK] at h
      rcases hr : sampleK o ((x :: xs).eraseIdx (rnat o p (xs.length + 1))) k
          (p + 1) with e | ⟨ids0, p0⟩
      · rw [hr] at h
        simp [Except.map] at h
      · rw [hr] at h
        simp only [Except.map, Except.ok.injEq, Prod.mk.injEq] at h
        rcases h with ⟨h1, _⟩
        rw [← h1] at hi
        rcases List.mem_cons.mp hi with hv | hrest
        · have hidx : rnat o p (xs.length + 1) < (x :: xs).length := by
            simpa using Nat.mod_lt _ (Nat.succ_pos xs.length)
          rw [hv, List.getD_eq_getElem _ _ hidx]
          exact List.getElem_mem _
        · exact List.mem_of_mem_eraseIdx (ih _ _ _ _ hr i hrest)

/-- Tournament selection returns a member of the population. -/
theorem tournament_mem (ps : GaParams) (pop : List (List Entry))
    (fits : List ℚ) (o : Oracle) (p : Nat) (tt : List Entry) (p' : Nat)
    (h : tournamentSelection ps pop fits o p = .ok (tt, p')) : tt ∈ pop := by
  simp only [tournamentSelection, bind, Except.bind] at h
  rcases hs : sampleK o (List.range pop.length) ps.tournamentSize p
      with e | ⟨ids, p1⟩
  · rw [hs] at h
    simp at h
  · rw [hs] at h
    dsimp only at h
    rcases hm : maxQ (ids.map (fun i => fits.getD i 0)) with _ | m
    · rw [hm] at h
      simp at h
    · rw [hm] at h
      dsimp only at h
      simp only [Except.ok.injEq, Prod.mk.injEq] at h
      rcases h with ⟨h1, _⟩
      rcases findIdx_of_mem m _ (maxQ_mem_of_eq _ _ hm) with ⟨i0, hi0, hfind, _⟩
      have hi0' : i0 < ids.length := by simpa using hi0
      have hwidx : ids.getD i0 0 ∈ ids := by
        rw [List.getD_eq_getElem _ _ hi0']
        exact List.getElem_mem _
      have hlt : ids.getD i0 0 < pop.length :=
        List.mem_range.mp (sampleK_sub o _ _ _ _ _ hs _ hwidx)
      rw [← h1, hfind]
      show pop.getD (ids.getD i0 0) [] ∈ pop
      rw [List.getD_eq_getElem _ _ hlt]
      exact List.getElem_mem _

/-- Every parent pair built by the pairing loop consists of population
members (given that the incoming accumulator already does). -/
theorem buildPairs_mem (ps : GaParams) (pop : List (List Entry)) (fits : List ℚ)
    (o : Oracle) :
    ∀ (m curLen : Nat) (acc : List (List Entry × List Entry)) (p : Nat)
      (pairs : List (List Entry × List Entry)) (p' : Nat),
      ps.populationSize - (curLen + acc.length * 2) ≤ m →
      buildPairs ps pop fits o curLen acc p = .ok (pairs, p') →
      (∀ pr ∈ acc, pr.1 ∈ pop ∧ pr.2 ∈ pop) →
      ∀ pr ∈ pairs, pr.1 ∈ pop ∧ pr.2 ∈ pop := by
  intro m
  induction m with
  | zero =>
    intro curLen acc p pairs p' hm h hacc
    have hcond : ¬ (curLen + acc.length * 2 < ps.populationSize) := by omega
    rw [buildPairs, if_neg hcond] at h
    simp only [Except.ok.injEq, Prod.mk.injEq] at h
    rcases h with ⟨h1, _⟩
    rw [← h1]
    exact hacc
  | succ m ih =>
    intro curLen acc p pairs p' hm h hacc
    by_cases hcond : curLen + acc.length * 2 < ps.populationSize
    · rw [buildPairs, if_pos hcond] at h
      simp only [bind, Except.bind] at h
      rcases hta : tournamentSelection ps pop fits o p with e | ⟨pa, p1⟩
      · rw [hta] at h
        simp at h
      · rw [hta] at h
        dsimp only at h
        rcases htb : tournamentSelection ps pop fits o p1 with e | ⟨pb, p2⟩
        · rw [htb] at h
          simp at h
        · rw [htb] at h
          dsimp only at h
          refine ih curLen (acc ++ [(pa, pb)]) p2 pairs p'
            (by
              simp only [List.length_append, List.length_cons, List.length_nil]
              omega)
            h ?_
          intro pr hpr
          rcases List.mem_append.mp hpr with h0 | h0
          · exact hacc pr h0
          · simp only [List.mem_singleton] at h0
            rw [h0]
            exact ⟨tournament_mem _ _ _ _ _ _ _ hta,
              tournament_mem _ _ _ _ _ _ _ htb⟩
    · rw [buildPairs, if_neg hcond] at h
      simp only [Except.ok.injEq, Prod.mk.injEq] at h
      rcases h with ⟨h1, _⟩
      rw [← h1]
      exact hacc

/-- Mutation never loses a fixed gene: a fixed entry of the input timetable is
still present in the mutated timetable. -/
theorem mutateGA_keeps_fixed (ps : GaParams) (o : Oracle) (p : Nat)
    (e : Entry) (he : e.isFixed = true) (tt : List Entry) (hm : e ∈ tt) :
    e ∈ (mutateGA ps o p tt).1 := by
  rcases List.getElem_of_mem hm with ⟨k, hk, hkeq⟩
  rcases mutateGA_spec ps o p tt with ⟨_, _, _, huntouched⟩
  have hfix : tt[k].isFixed = true := by rw [hkeq]; exact he
  have := huntouched k hk hfix
  rw [List.getElem?_eq_getElem hk, hkeq] at this
  exact List.getElem?_mem this

/-- The crossover/mutation loop preserves a fixed entry carried by both
components of every parent pair. -/
theorem crossMutLoop_fixed (ps : GaParams) (o : Oracle) (total : Nat)
    (e : Entry) (he : e.isFixed = true) :
    ∀ (pairs : List (List Entry × List Entry)) (children : List (List Entry))
      (p : Nat),
      (∀ pr ∈ pairs, e ∈ pr.1 ∧ e ∈ pr.2) →
      (∀ c ∈ children, e ∈ c) →
      ∀ c ∈ (crossMutLoop ps o total pairs children p).1, e ∈ c := by
  intro pairs
  induction pairs with
  | nil =>
    intro children p _ hch
    simpa [crossMutLoop] using hch
  | cons pr rest ih =>
    intro children p hpairs hch
    simp only [crossMutLoop]
    rcases hcr : crossoverGA o p pr.1 pr.2 with ⟨⟨c1, c2⟩, p1⟩
    rcases hm1 : mutateGA ps o p1 c1 with ⟨m1, p2⟩
    have hpr := hpairs pr (List.mem_cons_self _ _)
    have hcc := crossoverGA_fixed_mem o p pr.1 pr.2 e he hpr.1 hpr.2
    rw [hcr] at hcc
    have hm1mem : e ∈ m1 := by
      have := mutateGA_keeps_fixed ps o p1 e he c1 hcc.1
      rw [hm1] at this
      exact this
    have hrest : ∀ pr2 ∈ rest, e ∈ pr2.1 ∧ e ∈ pr2.2 :=
      fun pr2 h2 => hpairs pr2 (List.mem_cons_of_mem _ h2)
    by_cases hcond : (children ++ [m1]).length < total
    · rw [if_pos hcond]
      rcases hm2 : mutateGA ps o p2 c2 with ⟨m2, p3⟩
      have hm2mem : e ∈ m2 := by
        have := mutateGA_keeps_fixed ps o p2 e he c2 hcc.2
        rw [hm2] at this
        exact this
      refine ih (children ++ [m1] ++ [m2]) p3 hrest ?_
      intro c hc
      rcases List.mem_append.mp hc with hcl | hcl
      · rcases List.mem_append.mp hcl with hcl2 | hcl2
        · exact hch c hcl2
        · simp only [List.mem_singleton] at hcl2
          rw [hcl2]
          exact hm1mem
      · simp only [List.mem_singleton] at hcl
        rw [hcl]
        exact hm2mem
    · rw [if_neg hcond]
      refine ih (children ++ [m1]) p2 hrest ?_
      intro c hc
      rcases List.mem_append.mp hc with hcl | hcl
      · exact hch c hcl
      · simp only [List.mem_singleton] at hcl
        rw [hcl]
        exact hm1mem

/-- Every individual of the initial population is a `createRandomTimetable`
result. -/
theorem initPop_mem (cat : Catalog) (o : Oracle) :
    ∀ (n p : Nat) (pop : List (List Entry)) (p' : Nat),
      initPop cat o n p = .ok (pop, p') →
      ∀ tt ∈ pop, ∃ q q', createRandomTimetable cat o q = .ok (tt, q') := by
  intro n
  induction n with
  | zero =>
    intro p pop p' h tt htt
    simp only [initPop, Except.ok.injEq, Prod.mk.injEq] at h
    rcases h with ⟨h1, _⟩
    rw [← h1] at htt
    simp at htt
  | succ n ih =>
    intro p pop p' h tt htt
    simp only [initPop, bind, Except.bind] at h
    rcases hc : createRandomTimetable cat o p with e0 | ⟨tt0, p1⟩
    · rw [hc] at h
      simp at h
    · rw [hc] at h
      dsimp only at h
      rcases hr : initPop cat o n p1 with e0 | ⟨rest, p2⟩
      · rw [hr] at h
        simp at h
      · rw [hr] at h
        dsimp only at h
        simp only [Except.ok.injEq, Prod.mk.injEq] at h
        rcases h with ⟨h1, _⟩
        rw [← h1] at htt
        rcases List.mem_cons.mp htt with h0 | h0
        · subst h0
          exact ⟨p, p1, hc⟩
        · exact ih p1 rest p2 hr tt h0

/-- Generational-loop invariant: if a fixed entry is carried by every
individual of the current population and by the best-so-far individual, the
returned best individual carries it too. -/
theorem gaLoop_fixed (cat : Catalog) (ps : GaParams) (o : Oracle)
    (e : Entry) (he : e.isFixed = true) :
    ∀ (gensLeft gen : Nat) (pop : List (List Entry)) (hist : List GenRec)
      (bestFit : ℚ) (bestTT : Option (List Entry)) (p : Nat)
      (btt : Option (List Entry)) (hist' : List GenRec) (p' : Nat),
      gaLoop cat ps o gensLeft gen pop hist bestFit bestTT p =
        .ok (btt, hist', p') →
      (∀ tt ∈ pop, e ∈ tt) →
      (∀ t, bestTT = some t → e ∈ t) →
      ∀ t, btt = some t → e ∈ t := by
  intro gensLeft
  induction gensLeft with
  | zero =>
    intro gen pop hist bestFit bestTT p btt hist' p' h hpop hbest t ht
    simp only [gaLoop, Except.ok.injEq, Prod.mk.injEq] at h
    rcases h with ⟨h1, _⟩
    rw [← h1] at ht
    exact hbest t ht
  | succ gl ih =>
    intro gen pop hist bestFit bestTT p btt hist' p' h hpop hbest
    simp only [gaLoop] at h
    rcases hm : maxQ (pop.map (calculateFitness cat)) with _ | bf
    · rw [hm] at h
      simp at h
    · rw [hm] at h
      dsimp only at h
      have hbmem : ∀ t0,
          some (pop.getD ((List.findIdx? (fun x => x == bf)
            (pop.map (calculateFitness cat))).getD 0) []) = some t0 →
          e ∈ t0 := by
        intro t0 ht0
        rcases findIdx_of_mem bf _ (maxQ_mem_of_eq _ _ hm)
          with ⟨i0, hi0, hfind, _⟩
        have hlt : ((pop.map (calculateFitness cat)).findIdx?
            (fun x => x == bf)).getD 0 < pop.length := by
          rw [hfind]
          simpa using hi0
        rw [← Option.some.inj ht0, List.getD_eq_getElem _ _ hlt]
        exact hpop _ (List.getElem_mem _)
      by_cases hupd : bestFit < bf
      · rw [if_pos hupd] at h
        dsimp only at h
        by_cases hstop : (999 : ℚ) ≤ bf
        · rw [if_pos hstop] at h
          simp only [Except.ok.injEq, Prod.mk.injEq] at h
          rcases h with ⟨h1, _⟩
          intro t ht
          rw [← h1] at ht
          exact hbmem t ht
        · rw [if_neg hstop] at h
          simp only [bind, Except.bind] at h
          rcases hbp : buildPairs ps pop (pop.map (calculateFitness cat)) o
              ((((eliteIndices (pop.map (calculateFitness cat))).take
                ps.eliteSize).map (fun i => pop.getD i [])).length) [] p
              with e0 | ⟨pairs, p1⟩
          · rw [hbp] at h
            simp at h
          · rw [hbp] at h
            dsimp only at h
            rcases hcm : crossMutList ps o pairs p1 with ⟨children, p2⟩
            rw [hcm] at h
            dsimp only at h
            refine ih (gen + 1) _ _ _ _ p2 btt hist' p' h ?_ hbmem
            intro tt htt
            rcases List.mem_append.mp htt with h0 | h0
            · rcases List.mem_map.mp h0 with ⟨i, hi, hieq⟩
              have hi2 : i ∈ eliteIndices (pop.map (calculateFitness cat)) :=
                List.mem_of_mem_take hi
              have hi3 : i < pop.length := by
                simp only [eliteIndices] at hi2
                have := (mem_isortL _ i _).mp hi2
                simpa using this
              rw [← hieq, List.getD_eq_getElem _ _ hi3]
              exact hpop _ (List.getElem_mem _)
            · have hch : tt ∈ children := List.mem_of_mem_take h0
              have hps : ∀ pr ∈ pairs, e ∈ pr.1 ∧ e ∈ pr.2 := by
                intro pr hpr
                have := buildPairs_mem ps pop (pop.map (calculateFitness cat)) o
                  ps.populationSize _ [] p pairs p1 (Nat.sub_le _ _) hbp
                  (by simp) pr hpr
                exact ⟨hpop _ this.1, hpop _ this.2⟩
              have hall := crossMutLoop_fixed ps o (pairs.length * 2) e he
                pairs [] p1 hps (by simp)
              rw [crossMutList] at hcm
              rw [hcm] at hall
              exact hall tt hch
      · rw [if_neg hupd] at h
        dsimp only at h
        by_cases hstop : (999 : ℚ) ≤ bf
        · rw [if_pos hstop] at h
          simp only [Except.ok.injEq, Prod.mk.injEq] at h
          rcases h with ⟨h1, _⟩
          intro t ht
          rw [← h1] at ht
          exact hbest t ht
        · rw [if_neg hstop] at h
          simp only [bind, Except.bind] at h
          rcases hbp : buildPairs ps pop (pop.map (calculateFitness cat)) o
              ((((eliteIndices (pop.map (calculateFitness cat))).take
                ps.eliteSize).map (fun i => pop.getD i [])).length) [] p
              with e0 | ⟨pairs, p1⟩
          · rw [hbp] at h
            simp at h
          · rw [hbp] at h
            dsimp only at h
            rcases hcm : crossMutList ps o pairs p1 with ⟨children, p2⟩
            rw [hcm] at h
            dsimp only at h
            refine ih (gen + 1) _ _ _ _ p2 btt hist' p' h ?_ hbest
            intro tt htt
            rcases List.mem_append.mp htt with h0 | h0
            · rcases List.mem_map.mp h0 with ⟨i, hi, hieq⟩
              have hi2 : i ∈ eliteIndices (pop.map (calculateFitness cat)) :=
                List.mem_of_mem_take hi
              have hi3 : i < pop.length := by
                simp only [eliteIndices] at hi2
                have := (mem_isortL _ i _).mp hi2
                simpa using this
              rw [← hieq, List.getD_eq_getElem _ _ hi3]
              exact hpop _ (List.getElem_mem _)
            · have hch : tt ∈ children := List.mem_of_mem_take h0
              have hps : ∀ pr ∈ pairs, e ∈ pr.1 ∧ e ∈ pr.2 := by
                intro pr hpr
                have := buildPairs_mem ps pop (pop.map (calculateFitness cat)) o
                  ps.populationSize _ [] p pairs p1 (Nat.sub_le _ _) hbp
                  (by simp) pr hpr
                exact ⟨hpop _ this.1, hpop _ this.2⟩
              have hall := crossMutLoop_fixed ps o (pairs.length * 2) e he
                pairs [] p1 hps (by simp)
              rw [crossMutList] at hcm
              rw [hcm] at hall
              exact hall tt hch

/-- C1: fixed-slot invariance.  Every fixed slot of the snapshot appears, with
all its fields unchanged and `is_fixed = True`, (i) in every schedule the CSP
run returns, (ii) in every randomly initialized GA individual, (iii) in both
children of every crossover whose parents carry it, (iv) in every mutation
result whose input carries it, and (v) in the best individual returned by any
successful GA run, for every parameter setting and every randomness oracle —
so the fixed genes survive every generation of the generational loop. -/
theorem fixedSlotInvariance (cat : Catalog) (fs : FixedSlot)
    (hfs : fs ∈ cat.fixedSlots) :
    (Entry.ofFixed fs).isFixed = true ∧
    (∀ sol hist, cspRun cat = .ok (sol, hist) → Entry.ofFixed fs ∈ sol) ∧
    (∀ (o : Oracle) (p : Nat) (tt : List Entry) (p' : Nat),
      createRandomTimetable cat o p = .ok (tt, p') → Entry.ofFixed fs ∈ tt) ∧
    (∀ (o : Oracle) (p : Nat) (par1 par2 : List Entry),
      Entry.ofFixed fs ∈ par1 → Entry.ofFixed fs ∈ par2 →
      Entry.ofFixed fs ∈ (crossoverGA o p par1 par2).1.1 ∧
      Entry.ofFixed fs ∈ (crossoverGA o p par1 par2).1.2) ∧
    (∀ (ps : GaParams) (o : Oracle) (p : Nat) (tt : List Entry),
      Entry.ofFixed fs ∈ tt → Entry.ofFixed fs ∈ (mutateGA ps o p tt).1) ∧
    (∀ (ps : GaParams) (o : Oracle) (btt : Option (List Entry))
      (hist : List GenRec), gaRun cat ps o = .ok (btt, hist) →
      ∀ t, btt = some t → Entry.ofFixed fs ∈ t) := by
  refine ⟨rfl, ?_, ?_, ?_, ?_, ?_⟩
  · intro sol hist h
    have hs : smartSolve cat = some sol := cspRun_ok cat sol hist h
    rw [smartSolve] at hs
    rcases solveSteps_parts cat _ _ _ hs with ⟨parts, hsol, _, _⟩
    rw [hsol]
    exact List.mem_append_left _ (List.mem_map.mpr ⟨fs, hfs, rfl⟩)
  · intro o p tt p' h
    exact createRandomTimetable_fixed cat o p tt p' h fs hfs
  · intro o p par1 par2 h1 h2
    exact crossoverGA_fixed_mem o p par1 par2 _ rfl h1 h2
  · intro ps o p tt hmem
    exact mutateGA_keeps_fixed ps o p _ rfl tt hmem
  · intro ps o btt hist h t ht
    simp only [gaRun, bind, Except.bind] at h
    rcases hld : gaLoadData cat with e0 | u
    · rw [hld] at h
      simp at h
    · rw [hld] at h
      dsimp only at h
      rcases hip : initPop cat o ps.populationSize 0 with e0 | ⟨pop, p1⟩
      · rw [hip] at h
        simp at h
      · rw [hip] at h
        dsimp only at h
        rcases hgl : gaLoop cat ps o ps.maxGenerations 0 pop [] 0 none p1
            with e0 | ⟨btt0, hist0, p2⟩
        · rw [hgl] at h
          simp at h
        · rw [hgl] at h
          dsimp only at h
          simp only [Except.ok.injEq, Prod.mk.injEq] at h
          rcases h with ⟨h1, _⟩
          refine gaLoop_fixed cat ps o (Entry.ofFixed fs) rfl
            ps.maxGenerations 0 pop [] 0 none p1 btt0 hist0 p2 hgl ?_
            (fun t0 ht0 => absurd ht0 (by simp)) t ?_
          · intro tt htt
            rcases initPop_mem cat o ps.populationSize 0 pop p1 hip tt htt
              with ⟨q, q', hq⟩
            exact createRandomTimetable_fixed cat o q tt q' hq fs hfs
          · rw [h1]
            exact ht

/-- Witness for C1: a catalog whose one allocation is covered by a fixed slot;
the fixed entry appears in the CSP output and survives a concrete mutation. -/
theorem fixedSlotInvariance_witness :
    (fsW ∈ catWF.fixedSlots ∧
     cspRun catWF = .ok (applyFixedSlots catWF, histW1) ∧
     Entry.ofFixed fsW ∈ [Entry.ofFixed fsW, default]) ∧
    Entry.ofFixed fsW ∈ applyFixedSlots catWF ∧
    Entry.ofFixed fsW ∈ (mutateGA psW (fun _ => 0) 0 [Entry.ofFixed fsW, default]).1 := by
  refine ⟨⟨by decide, by decide, by decide⟩, ?_, ?_⟩
  · exact (fixedSlotInvariance catWF fsW (by decide)).2.1 (applyFixedSlots catWF)
      histW1 (by decide)
  · exact (fixedSlotInvariance catWF fsW (by decide)).2.2.2.2.1 psW (fun _ => 0) 0
      [Entry.ofFixed fsW, default] (by decide)

/-! ### The over-constrained scenario of C7 -/

/-- Two batches needing the same single faculty on a one-slot calendar: two
requirements compete for one slot, so the CSP is infeasible while the GA must
still return a schedule. -/
def catC7 : Catalog :=
  { workingDays := ["Mon"], timeSlots := ["P1"],
    batches := [{ id := 1, numberOfStudents := 30 },
                { id := 2, numberOfStudents := 30 }],
    subjects := [{ id := 1, subjectType := "theory", credits := 3,
                   theoryHours := 1, labHours := 0 }],
    allocations := [{ batchId := 1, subjectId := 1, facultyId := 1 },
                    { batchId := 2, subjectId := 1, facultyId := 1 }],
    classrooms := [{ id := 1, capacity := some 60, computerCapacity := none }],
    labs := [], fixedSlots := [],
    constraints := [
      { name := "no_faculty_conflict", ctype := "hard", enabled := true, weight := 10 },
      { name := "no_room_conflict", ctype := "hard", enabled := true, weight := 10 }] }

/-- Minimal valid GA parameters for the scenario. -/
def psC7 : GaParams :=
  { populationSize := 1, maxGenerations := 1, crossoverRate := 0,
    mutationRate := 0, eliteSize := 1, tournamentSize := 1 }

/-- The only individual constructible over `catC7`'s one-slot calendar. -/
def ttC7 : List Entry :=
  [{ batchId := 1, day := "Mon", timeSlot := "P1", subjectId := 1, facultyId := 1,
     roomId := 1, roomType := "classroom", isFixed := false },
   { batchId := 2, day := "Mon", timeSlot := "P1", subjectId := 1, facultyId := 1,
     roomId := 1, roomType := "classroom", isFixed := false }]

theorem penC7 : gaPenalty catC7 ttC7 = 20 := by
  simp +decide [gaPenalty, gaFind, gaConstraints, conflictPenalty, gapPenalty,
    balancePenalty, groupByKey, keyCounts, distinctFaculty, facultyDailyLoad,
    catC7, ttC7, List.find?, timeIdx, isortL, insertL]
  norm_num

theorem fitC7 : calculateFitness catC7 ttC7 = 1000 / 21 := by
  rw [calculateFitness, penC7]
  norm_num

theorem crtC7 (o : Oracle) (p : Nat) :
    createRandomTimetable catC7 o p = .ok (ttC7, p + 6) := by
  simp [createRandomTimetable, crtLoop, slotRequirements, pick, catC7,
    applyFixedSlots, subjFind, batchFind, Nat.mod_one, ttC7, bind, Except.bind]

theorem ipC7 (o : Oracle) : initPop catC7 o 1 0 = .ok ([ttC7], 6) := by
  simp [initPop, crtC7, bind, Except.bind]

theorem runC7 (o : Oracle) :
    gaRun catC7 psC7 o =
      .ok (some ttC7,
        [{ generation := 0, best := 1000 / 21, average := 1000 / 21 }]) := by
  have h0 : (0 : ℚ) < 1000 / 21 := by norm_num
  have h999 : ¬ ((999 : ℚ) ≤ 1000 / 21) := by norm_num
  have hload : gaLoadData catC7 = .ok () := by decide
  simp only [gaRun, hload, psC7, ipC7, bind, Except.bind]
  simp [gaLoop, maxQ, fitC7, h0, h999, eliteIndices, isortL, insertL, buildPairs,
    crossMutList, crossMutLoop, bind, Except.bind]

/-! ### C7 -/

/-- C7 (amended): for every catalog accepted at construction with nonnegative
enabled weights and a non-degenerate calendar, and for parameters with at
least one individual, at least one generation, and a tournament size between 1
and the population size, the GA run never raises and returns a non-null best
individual together with a non-empty per-generation history; in particular, on
the over-constrained `catC7` — where the CSP raises — the GA still returns a
schedule whose penalty is positive and whose fitness is below 1000. -/
theorem gaSoftLanding (cat : Catalog) (ps : GaParams) (o : Oracle)
    (hd : cat.workingDays ≠ []) (ht : cat.timeSlots ≠ [])
    (hload : gaLoadData cat = .ok ())
    (hw : ∀ c ∈ cat.constraints, c.enabled = true → 0 ≤ c.weight)
    (hP : 1 ≤ ps.populationSize) (hG : 1 ≤ ps.maxGenerations)
    (hk1 : 1 ≤ ps.tournamentSize)
    (hkP : ps.tournamentSize ≤ ps.populationSize) :
    (∃ tt hist, gaRun cat ps o = .ok (some tt, hist) ∧ 1 ≤ hist.length) ∧
    (∀ o' : Oracle,
      gaRun catC7 psC7 o' =
        .ok (some ttC7,
          [{ generation := 0, best := 1000 / 21, average := 1000 / 21 }]) ∧
      cspRun catC7 =
        .error "Failed to find valid timetable. Try relaxing constraints." ∧
      0 < gaPenalty catC7 ttC7 ∧ calculateFitness catC7 ttC7 < 1000) := by
  constructor
  · rcases gaLoadData_ok_parts cat hload with ⟨_, _, hc⟩
    rcases initPop_ok cat o hd ht hc ps.populationSize 0 with ⟨pop, p1, hip, hlen⟩
    rcases gaLoop_ok cat ps o hw hP hk1 hkP ps.maxGenerations 0 pop [] 0 none p1
      hlen (fun _ => rfl) with ⟨btt, hist, p', hloop, _, _, hgen⟩
    rcases hgen hG with ⟨hsome, hh⟩
    rcases Option.isSome_iff_exists.mp hsome with ⟨tt, htt⟩
    refine ⟨tt, hist, ?_, by simpa using hh⟩
    simp only [gaRun, hload, hip, hloop, bind, Except.bind, htt]
  · intro o'
    refine ⟨runC7 o', by decide, ?_, ?_⟩
    · rw [penC7]
      norm_num
    · rw [fitC7]
      norm_num

/-- Witness for C7, applying the theorem on the scenario catalog itself. -/
theorem gaSoftLanding_witness :
    (catC7.workingDays ≠ [] ∧ catC7.timeSlots ≠ [] ∧
     gaLoadData catC7 = .ok () ∧
     (∀ c ∈ catC7.constraints, c.enabled = true → 0 ≤ c.weight) ∧
     1 ≤ psC7.populationSize ∧ 1 ≤ psC7.maxGenerations ∧
     1 ≤ psC7.tournamentSize ∧ psC7.tournamentSize ≤ psC7.populationSize) ∧
    (∃ tt hist, gaRun catC7 psC7 (fun _ => 0) = .ok (some tt, hist) ∧
      1 ≤ hist.length) :=
  ⟨⟨by decide, by decide, by decide, by decide, by decide, by decide,
    by decide, by decide⟩,
   (gaSoftLanding catC7 psC7 (fun _ => 0) (by decide) (by decide) (by decide)
     (by decide) (by decide) (by decide) (by decide) (by decide)).1⟩

/-- C7 counterexample to the claim as stated: with `max_generations = 0` —
a parameter setting the constructor accepts — the generational loop never
runs and `run()` returns a null best individual with an empty history. -/
theorem gaSoftLanding_cex :
    gaRun catC7 { psC7 with maxGenerations := 0 } (fun _ => 0) =
      .ok (none, []) := by
  decide
